import Mathlib

/-!
Verification of the text-normalization / tokenization / alignment-scoring core
of a pronunciation-checker application (source: `src/app.py`).

Texts are modelled as `List Char` (the ASCII fragment of Python's `str`: the
source's regexes `\d`, `\w`, `[a-z']` only ever produce tokens over ASCII, and
the spec documents non-ASCII input as silently dropped).  Python floats are
modelled as `ℚ` (the score is a ratio of two small integer counts).  All
definitions are structurally recursive (an explicit fuel argument bounded by
the input length replaces Python's while-style recursion) so that every
function evaluates inside the kernel.
-/

abbrev Str := List Char

/-- The apostrophe character (code 39), written via `Char.ofNat`. -/
def apos : Char := Char.ofNat 39

/-- ASCII decimal digit: the fragment of Python's `\d` relevant here. -/
def isDigitCh (c : Char) : Bool := c.isDigit

/-- ASCII word character `[a-zA-Z0-9_]`: the fragment of Python's `\w`. -/
def isWordCh (c : Char) : Bool := c.isAlphanum || c == '_'

/-- A `.` or `,` separator, as in the regex `(?:[.,]\d+)?`. -/
def isSepCh (c : Char) : Bool := c == '.' || c == ','

/-- The character class `[a-z']` used by `re.findall(r"[a-z']+|<num>", ...)`. -/
def isTokCls (c : Char) : Bool := ('a' ≤ c && c ≤ 'z') || c == apos

/-- The numeral placeholder token `<num>`. -/
def numTok : Str := "<num>".data

/-- String prefix test (Python's "the pattern matches at this position"). -/
def leadsWith : Str → Str → Bool
  | [], _ => true
  | _ :: _, [] => false
  | p :: ps, c :: cs => p == c && leadsWith ps cs

/-- Is there a regex word boundary `\b` between the previous character and the
current position?  `none` means start of string (always a boundary before a
word character). -/
def boundaryBefore : Option Char → Bool
  | none => true
  | some c => !isWordCh c

/-- Is there a word boundary `\b` between the last matched (word) character and
the remaining text? -/
def boundaryAfter : Str → Bool
  | [] => true
  | c :: _ => !isWordCh c

/-- Does the remaining text start with a separator followed by a digit
(so that the optional group `(?:[.,]\d+)?` can start matching)? -/
def sepDigits : Str → Bool
  | s :: d :: _ => isSepCh s && isDigitCh d
  | _ => false

/-- One attempt of Python's `re` engine to match `\b\d+(?:[.,]\d+)?\b` at the
current position of the text, given the previous character `prev` (needed for
the leading `\b`).  Returns `some (consumed, rest)` on a match.  The engine is
greedy with backtracking: if the trailing `\b` fails after the optional
`[.,]\d+` group, the group is dropped (the trailing `\b` after the first digit
run then sits before the separator, a non-word character, so it holds); if the
trailing `\b` fails with no group taken, the whole match at this position
fails. -/
def numMatch (prev : Option Char) (s : Str) : Option (Str × Str) :=
  if !boundaryBefore prev then none
  else
    match s with
    | [] => none
    | c :: t =>
      if !isDigitCh c then none
      else
        let d1 := (c :: t).takeWhile isDigitCh
        let r1 := (c :: t).dropWhile isDigitCh
        if sepDigits r1 then
          let sep := r1.headD ' '
          let r2 := r1.tail
          let d2 := r2.takeWhile isDigitCh
          let r3 := r2.dropWhile isDigitCh
          if boundaryAfter r3 then some (d1 ++ sep :: d2, r3) else some (d1, r1)
        else if boundaryAfter r1 then some (d1, r1) else none

/-- Scan of `re.sub(r"\b\d+(?:[.,]\d+)?\b", "<num>", text)`: at each position
try `numMatch`; on a match emit `<num>` and continue after the match, else emit
the character and move on.  `fuel` only bounds the recursion (each step
consumes at least one character, so `fuel = length` is exact); on exhaustion
the remaining text is returned unchanged. -/
def goSubF : Nat → Option Char → Str → Str
  | 0, _, s => s
  | _ + 1, _, [] => []
  | f + 1, prev, c :: t =>
    match numMatch prev (c :: t) with
    | some (d, r) => numTok ++ goSubF f (some (d.getLastD ' ')) r
    | none => c :: goSubF f (some c) t

/-- `re.sub(r"\b\d+(?:[.,]\d+)?\b", "<num>", text)` from
`normalize_text_for_scoring`. -/
def subNum (s : Str) : Str := goSubF s.length none s

/-- Scan of `re.findall(r"[a-z']+|<num>", text)`: at each position the first
alternative `[a-z']+` is tried (maximal run), then the literal `<num>`;
otherwise the character is skipped. -/
def findTokensF : Nat → Str → List Str
  | 0, _ => []
  | _ + 1, [] => []
  | f + 1, c :: t =>
    if isTokCls c then
      (c :: t.takeWhile isTokCls) :: findTokensF f (t.dropWhile isTokCls)
    else if leadsWith numTok (c :: t) then
      numTok :: findTokensF f ((c :: t).drop numTok.length)
    else findTokensF f t

/-- `re.findall(r"[a-z']+|<num>", text)`. -/
def findTokens (s : Str) : List Str := findTokensF s.length s

/-- The fixed number-word vocabulary `NUM_WORDS` from the source. -/
def NUM_WORDS : List Str :=
  ["zero".data, "one".data, "two".data, "three".data, "four".data, "five".data,
   "six".data, "seven".data, "eight".data, "nine".data, "ten".data,
   "eleven".data, "twelve".data, "thirteen".data, "fourteen".data,
   "fifteen".data, "sixteen".data, "seventeen".data, "eighteen".data,
   "nineteen".data, "twenty".data, "thirty".data, "forty".data, "fifty".data,
   "sixty".data, "seventy".data, "eighty".data, "ninety".data,
   "hundred".data, "thousand".data, "million".data, "billion".data]

/-- `"<num>" if t in NUM_WORDS else t` from `normalize_text_for_scoring`. -/
def mapNumWord (t : Str) : Str := if t ∈ NUM_WORDS then numTok else t

/-- Python's `" ".join(...)`. -/
def joinTokens : List Str → Str
  | [] => []
  | [t] => t
  | t :: ts => t ++ ' ' :: joinTokens ts

/-- The whitespace characters of Python's `str.split()` / `str.strip()`
(ASCII fragment: space, tab, newline, CR, vertical tab, form feed). -/
def isPySpace (c : Char) : Bool :=
  c == ' ' || c == '\t' || c == '\n' || c == '\r' ||
  c == Char.ofNat 11 || c == Char.ofNat 12

/-- Python's `str.split()` (split on whitespace runs, dropping empties). -/
def pySplitF : Nat → Str → List Str
  | 0, _ => []
  | f + 1, s =>
    match s.dropWhile isPySpace with
    | [] => []
    | c :: t =>
      (c :: t.takeWhile (fun x => !isPySpace x)) ::
        pySplitF f (t.dropWhile (fun x => !isPySpace x))

/-- Python's `str.split()`. -/
def pySplit (s : Str) : List Str := pySplitF s.length s

/-- Python's `str.lower()` (ASCII fragment). -/
def pyLower (s : Str) : Str := s.map Char.toLower

/-- `normalize_text_for_scoring` from the source: lowercase, substitute
digit runs matching `\b\d+(?:[.,]\d+)?\b` by `<num>`, extract tokens with
`re.findall(r"[a-z']+|<num>", ...)`, map number words to `<num>`, and join
with single spaces. -/
def normalize_text_for_scoring (s : Str) : Str :=
  joinTokens ((findTokens (subNum (pyLower s))).map mapNumWord)

/-- `tokenize` from the source: `normalize_text_for_scoring(text).split()`. -/
def tokenize (s : Str) : List Str := pySplit (normalize_text_for_scoring s)

/-!
The aligner: a shallow embedding of Python's `difflib.SequenceMatcher`
(as invoked by `align_words`: no `isjunk` function, default `autojunk=True`).
Since `isjunk` is `None`, the junk set `bjunk` is empty, so the two
junk-extension while loops of `find_longest_match` never fire and are omitted;
"popular" elements (autojunk) are only removed from `b2j`.
-/

/-- Autojunk popularity test: with `n = len(b) >= 200`, an element occurring
more than `n // 100 + 1` times is dropped from `b2j`. -/
def isPopular (b : List Str) (x : Str) : Bool :=
  decide (200 ≤ b.length) && decide (b.length / 100 + 1 < b.count x)

/-- `b2j[x]`: the (ascending) list of positions of `x` in `b`, empty for
popular elements. -/
def b2j (b : List Str) (x : Str) : List Nat :=
  if isPopular b x then []
  else (List.range b.length).filter (fun j => b.get? j == some x)

/-- `j2len.get(j, 0)` on the association list representing the dict. -/
def lookupJ2 (l : List (Nat × Nat)) (j : Nat) : Nat :=
  match l.find? (fun p => p.1 == j) with
  | some p => p.2
  | none => 0

/-- Inner loop of `find_longest_match`'s dynamic program, over
`b2j.get(a[i])`: `continue` below `blo`, `break` at `bhi`, otherwise extend the
diagonal run (`k = j2len.get(j-1, 0) + 1`; in Python `j - 1` is `-1` when
`j = 0`, never a key, hence the explicit zero), record it in `newj2len`, and
update the running best on strict improvement.  `i + 1 - k` is Python's
`i - k + 1` (always nonnegative since a run ending at `i` has length at most
`i + 1`). -/
def dpInner (blo bhi i : Nat) (old : List (Nat × Nat)) :
    List Nat → List (Nat × Nat) → Nat × Nat × Nat → List (Nat × Nat) × (Nat × Nat × Nat)
  | [], acc, best => (acc, best)
  | j :: js, acc, best =>
    if j < blo then dpInner blo bhi i old js acc best
    else if bhi ≤ j then (acc, best)
    else
      let k := (if j = 0 then 0 else lookupJ2 old (j - 1)) + 1
      let acc2 := (j, k) :: acc
      let best2 := if best.2.2 < k then (i + 1 - k, j + 1 - k, k) else best
      dpInner blo bhi i old js acc2 best2

/-- Outer loop of `find_longest_match`'s dynamic program over
`i in range(alo, ahi)`; `j2len` is rebuilt (as `newj2len`) at every step. -/
def dpLoop (a b : List Str) (blo bhi : Nat) :
    List Nat → List (Nat × Nat) → Nat × Nat × Nat → Nat × Nat × Nat
  | [], _, best => best
  | i :: is, j2, best =>
    let p := dpInner blo bhi i j2 (b2j b (a.getD i [])) [] best
    dpLoop a b blo bhi is p.1 p.2

/-- The backward (non-junk) extension while loop of `find_longest_match`.
The fuel only bounds iteration (`besti` strictly decreases, so `besti`
iterations always suffice). -/
def extendBackF (a b : List Str) (alo blo : Nat) : Nat → Nat × Nat × Nat → Nat × Nat × Nat
  | 0, best => best
  | f + 1, (bi, bj, bs) =>
    if alo < bi && blo < bj && (a.getD (bi - 1) [] == b.getD (bj - 1) []) then
      extendBackF a b alo blo f (bi - 1, bj - 1, bs + 1)
    else (bi, bj, bs)

/-- The forward (non-junk) extension while loop of `find_longest_match`
(`bestsize` strictly increases and stays below `ahi`, bounding iteration). -/
def extendFwdF (a b : List Str) (ahi bhi : Nat) : Nat → Nat × Nat × Nat → Nat × Nat × Nat
  | 0, best => best
  | f + 1, (bi, bj, bs) =>
    if bi + bs < ahi && bj + bs < bhi && (a.getD (bi + bs) [] == b.getD (bj + bs) []) then
      extendFwdF a b ahi bhi f (bi, bj, bs + 1)
    else (bi, bj, bs)

/-- `SequenceMatcher.find_longest_match(alo, ahi, blo, bhi)`: the dynamic
program starting from `(alo, blo, 0)`, then the backward and forward
extensions. -/
def find_longest_match (a b : List Str) (alo ahi blo bhi : Nat) : Nat × Nat × Nat :=
  let d := dpLoop a b blo bhi (List.range' alo (ahi - alo)) [] (alo, blo, 0)
  let e := extendBackF a b alo blo d.1 d
  extendFwdF a b ahi bhi (ahi - e.2.2) e

/-- The recursive block collection of `get_matching_blocks`.  difflib drives
the same recursion with an explicit work queue and then sorts the collected
blocks; since every block found in the left subrange ends before `i` and every
block of the right subrange starts after `i + k`, emitting them in recursion
order produces exactly that sorted list.  The fuel bounds recursion depth
(each subrange is strictly shorter, so `length + 1` always suffices). -/
def mbF (a b : List Str) : Nat → Nat → Nat → Nat → Nat → List (Nat × Nat × Nat)
  | 0, _, _, _, _ => []
  | f + 1, alo, ahi, blo, bhi =>
    let m := find_longest_match a b alo ahi blo bhi
    if m.2.2 = 0 then []
    else
      (if alo < m.1 && blo < m.2.1 then mbF a b f alo m.1 blo m.2.1 else []) ++
      m ::
      (if m.1 + m.2.2 < ahi && m.2.1 + m.2.2 < bhi then
        mbF a b f (m.1 + m.2.2) ahi (m.2.1 + m.2.2) bhi
      else [])

/-- The second phase of `get_matching_blocks`: collapse adjacent blocks,
starting from the sentinel `(0, 0, 0)`, emitting the pending block whenever a
non-adjacent one arrives (and at the end when nonzero). -/
def mergeAdj : Nat × Nat × Nat → List (Nat × Nat × Nat) → List (Nat × Nat × Nat)
  | (i1, j1, k1), [] => if k1 ≠ 0 then [(i1, j1, k1)] else []
  | (i1, j1, k1), (i2, j2, k2) :: rest =>
    if i1 + k1 = i2 ∧ j1 + k1 = j2 then mergeAdj (i1, j1, k1 + k2) rest
    else (if k1 ≠ 0 then [(i1, j1, k1)] else []) ++ mergeAdj (i2, j2, k2) rest

/-- `SequenceMatcher.get_matching_blocks()`, including the final terminator
block `(la, lb, 0)`. -/
def get_matching_blocks (a b : List Str) : List (Nat × Nat × Nat) :=
  mergeAdj (0, 0, 0) (mbF a b (a.length + 1) 0 a.length 0 b.length) ++
    [(a.length, b.length, 0)]

/-- The four opcode tags of `SequenceMatcher.get_opcodes()`. -/
inductive Tag where
  | equal
  | replace
  | delete
  | insert
deriving DecidableEq, Repr

/-- One opcode `(tag, i1, i2, j1, j2)`. -/
structure Op where
  tag : Tag
  i1 : Nat
  i2 : Nat
  j1 : Nat
  j2 : Nat
deriving DecidableEq, Repr

/-- The loop of `get_opcodes()`: before each matching block emit the gap
opcode (`replace` / `delete` / `insert`, if any), then the `equal` opcode when
the block is nonempty, advancing the cursor to the block end. -/
def opcodesLoop : Nat → Nat → List (Nat × Nat × Nat) → List Op
  | _, _, [] => []
  | i, j, (ai, bj, size) :: rest =>
    (if i < ai ∧ j < bj then [⟨Tag.replace, i, ai, j, bj⟩]
     else if i < ai then [⟨Tag.delete, i, ai, j, bj⟩]
     else if j < bj then [⟨Tag.insert, i, ai, j, bj⟩]
     else []) ++
    (if size ≠ 0 then [⟨Tag.equal, ai, ai + size, bj, bj + size⟩] else []) ++
    opcodesLoop (ai + size) (bj + size) rest

/-- `SequenceMatcher.get_opcodes()`. -/
def get_opcodes (a b : List Str) : List Op := opcodesLoop 0 0 (get_matching_blocks a b)

/-- `align_words` from the source: `SequenceMatcher(a=ref_tokens,
b=hyp_tokens).get_opcodes()`. -/
def align_words (ref_tokens hyp_tokens : List Str) : List Op :=
  get_opcodes ref_tokens hyp_tokens

/-- One mismatch record, the dict `{"type": ..., "ref": ..., "hyp": ...}`
built by `score_and_mismatches`. -/
structure Mismatch where
  mtype : Str
  ref : Str
  hyp : Str
deriving DecidableEq, Repr

/-- Python's `tokens[i:j]` for `i ≤ j` (slicing clamps at the ends, as
`drop`/`take` do). -/
def listSlice (l : List Str) (i j : Nat) : List Str := (l.drop i).take (j - i)

/-- `" ".join(tokens[i:j])`. -/
def sliceJoin (l : List Str) (i j : Nat) : Str := joinTokens (listSlice l i j)

/-- `for k in range(i1, i2): if 0 <= k < len(ref_marks): ref_marks[k] = "bad"`
(`List.set` is a no-op out of bounds, exactly the guarded assignment). -/
def markBad (marks : List Str) (i1 i2 : Nat) : List Str :=
  (List.range' i1 (i2 - i1)).foldl (fun m k => m.set k "bad".data) marks

/-- The opcode walk of `score_and_mismatches`: accumulate the matched count,
the mismatch list and the reference marks. -/
def processOps (rt ht : List Str) :
    List Op → Nat × List Mismatch × List Str → Nat × List Mismatch × List Str
  | [], st => st
  | op :: rest, (matched, mm, marks) =>
    match op.tag with
    | Tag.equal => processOps rt ht rest (matched + (op.i2 - op.i1), mm, marks)
    | Tag.replace =>
      processOps rt ht rest
        (matched,
         mm ++ [⟨"replace".data, sliceJoin rt op.i1 op.i2, sliceJoin ht op.j1 op.j2⟩],
         markBad marks op.i1 op.i2)
    | Tag.delete =>
      processOps rt ht rest
        (matched,
         mm ++ [⟨"delete".data, sliceJoin rt op.i1 op.i2, "(missing)".data⟩],
         markBad marks op.i1 op.i2)
    | Tag.insert =>
      processOps rt ht rest
        (matched,
         mm ++ [⟨"insert".data, "(extra)".data, sliceJoin ht op.j1 op.j2⟩],
         marks)

/-- `score_and_mismatches` from the source.  The score `100.0 * matched /
max(1, len(ref_tokens))` is modelled in `ℚ` (it is an exact ratio of small
integer counts); it is written with `mkRat`, which is provably the same
rational as `100 * matched / max 1 len` (see `score_eq_div`) but evaluates
inside the kernel. -/
def score_and_mismatches (ref_text hyp_text : Str) :
    ℚ × List Mismatch × List Str × List Str × List Str :=
  let ref_tokens := tokenize ref_text
  let hyp_tokens := tokenize hyp_text
  if ref_tokens = [] then (0, [], ref_tokens, hyp_tokens, [])
  else
    let ops := align_words ref_tokens hyp_tokens
    let st := processOps ref_tokens hyp_tokens ops
      (0, [], List.replicate ref_tokens.length "ok".data)
    (mkRat (100 * st.1) (max 1 ref_tokens.length),
     st.2.1, ref_tokens, hyp_tokens, st.2.2)

/-- Python's `str.strip()` (ASCII whitespace fragment). -/
def pyStrip (s : Str) : Str :=
  ((s.dropWhile isPySpace).reverse.dropWhile isPySpace).reverse

/-- Python's `str.replace(pat, rep)` for a nonempty `pat`: scan left to
right, replacing non-overlapping occurrences and continuing after each
replacement.  Fuel bounds the scan (each step consumes at least one
character). -/
def pyReplaceF (pat rep : Str) : Nat → Str → Str
  | 0, s => s
  | f + 1, s =>
    if leadsWith pat s then rep ++ pyReplaceF pat rep f (s.drop pat.length)
    else
      match s with
      | [] => []
      | c :: t => c :: pyReplaceF pat rep f t

/-- Python's `str.replace(pat, rep)`. -/
def pyReplace (s pat rep : Str) : Str := pyReplaceF pat rep s.length s

/-- The loop of `practice_items_from_mismatches`: skip empty / `"(extra)"`
stripped reference texts, make `<num>` pronounceable, deduplicate with the
`seen` set, and stop right after an append once `len(out) >= max_items`. -/
def practiceLoop (max_items : Nat) : List Mismatch → List Str → List Str → List Str
  | [], _, out => out
  | m :: rest, seen, out =>
    let ref0 := pyStrip m.ref
    if ref0 = [] ∨ ref0 = "(extra)".data then practiceLoop max_items rest seen out
    else
      let ref1 := pyReplace ref0 numTok "number".data
      if ref1 ∈ seen then practiceLoop max_items rest seen out
      else if max_items ≤ out.length + 1 then out ++ [ref1]
      else practiceLoop max_items rest (ref1 :: seen) (out ++ [ref1])

/-- `practice_items_from_mismatches` from the source (`max_items` as a
natural number; the source's default is 12). -/
def practice_items_from_mismatches (mismatches : List Mismatch) (max_items : Nat) :
    List Str :=
  practiceLoop max_items mismatches [] []
/-!
Verification-support definitions: spec-level reformulations that the theorems
compare against, and structural predicates used by the invariant proofs.
-/

/-- The mismatch record that `score_and_mismatches` emits for one opcode
(`none` for `equal`), as described by the spec. -/
def mismatchOf (rt ht : List Str) (op : Op) : Option Mismatch :=
  match op.tag with
  | Tag.equal => none
  | Tag.replace =>
    some ⟨"replace".data, sliceJoin rt op.i1 op.i2, sliceJoin ht op.j1 op.j2⟩
  | Tag.delete =>
    some ⟨"delete".data, sliceJoin rt op.i1 op.i2, "(missing)".data⟩
  | Tag.insert =>
    some ⟨"insert".data, "(extra)".data, sliceJoin ht op.j1 op.j2⟩

/-- The number of reference tokens covered by `equal` opcodes. -/
def equalMatched (ops : List Op) : Nat :=
  (ops.map (fun op => if op.tag = Tag.equal then op.i2 - op.i1 else 0)).sum

/-- Structural invariant of an opcode list: the spans chain left to right,
gap-free from the cursor `(i, j)`, stay inside `[0, la] × [0, lb]`, and
`insert` (resp. `delete`) spans cover no reference (resp. hypothesis)
position. -/
def OpsB (la lb : Nat) : Nat → Nat → List Op → Prop
  | _, _, [] => True
  | i, j, op :: rest =>
    op.i1 = i ∧ op.j1 = j ∧ op.i1 ≤ op.i2 ∧ op.j1 ≤ op.j2 ∧
    op.i2 ≤ la ∧ op.j2 ≤ lb ∧
    (op.tag = Tag.insert → op.i1 = op.i2) ∧
    (op.tag = Tag.delete → op.j1 = op.j2) ∧
    OpsB la lb op.i2 op.j2 rest

/-- Structural invariant of a matching-block list: nonempty blocks, chained in
order inside `[alo, ahi] × [blo, bhi]`. -/
def BlocksB (ahi bhi : Nat) : Nat → Nat → List (Nat × Nat × Nat) → Prop
  | _, _, [] => True
  | alo, blo, (i, j, k) :: rest =>
    alo ≤ i ∧ blo ≤ j ∧ 1 ≤ k ∧ i + k ≤ ahi ∧ j + k ≤ bhi ∧
    BlocksB ahi bhi (i + k) (j + k) rest

/-- As `BlocksB` but allowing empty blocks (needed for the final terminator
block `(la, lb, 0)` of `get_matching_blocks`). -/
def BlocksLE (ahi bhi : Nat) : Nat → Nat → List (Nat × Nat × Nat) → Prop
  | _, _, [] => True
  | alo, blo, (i, j, k) :: rest =>
    alo ≤ i ∧ blo ≤ j ∧ i + k ≤ ahi ∧ j + k ≤ bhi ∧
    BlocksLE ahi bhi (i + k) (j + k) rest

/-- Post-condition of `find_longest_match` on a range: either the empty match
`(alo, blo, 0)`, or a nonempty span inside the ranges. -/
def FlmP (alo blo ahi bhi : Nat) (r : Nat × Nat × Nat) : Prop :=
  r = (alo, blo, 0) ∨
  (1 ≤ r.2.2 ∧ alo ≤ r.1 ∧ blo ≤ r.2.1 ∧ r.1 + r.2.2 ≤ ahi ∧ r.2.1 + r.2.2 ≤ bhi)

/-- Is position `i` of `v` occupied by a non-popular (not autojunked)
element? -/
def nonpopAt (v : List Str) (i : Nat) : Bool := !isPopular v (v.getD i [])

/-- Length of the maximal run of non-popular elements of `v` ending at
position `i`. -/
def runLen (v : List Str) : Nat → Nat
  | 0 => if nonpopAt v 0 then 1 else 0
  | i + 1 => if nonpopAt v (i + 1) then runLen v i + 1 else 0

/-- A maximal digit run as described by the spec's pattern: one or more
digits, optionally followed by one `.` or `,` separator and one or more
digits. -/
def NumPat (d : Str) : Prop :=
  (d ≠ [] ∧ ∀ c ∈ d, isDigitCh c) ∨
  (∃ d1 s d2, d = d1 ++ s :: d2 ∧ d1 ≠ [] ∧ d2 ≠ [] ∧
    (∀ c ∈ d1, isDigitCh c) ∧ (∀ c ∈ d2, isDigitCh c) ∧ isSepCh s)

/-- The transformed reference text that `practice_items_from_mismatches`
would keep for one mismatch (`none` when skipped). -/
def keptItem (m : Mismatch) : Option Str :=
  let r := pyStrip m.ref
  if r = [] ∨ r = "(extra)".data then none
  else some (pyReplace r numTok "number".data)

/-- First-occurrence deduplication with an explicit `seen` accumulator. -/
def dedupFirst : List Str → List Str → List Str
  | [], _ => []
  | x :: t, seen =>
    if x ∈ seen then dedupFirst t seen else x :: dedupFirst t (x :: seen)

/-- The "previous character" seen by the regex scan after passing over `u`:
the last character of `u`, or the incoming one when `u` is empty. -/
def junctionPrev (prev : Option Char) (u : Str) : Option Char :=
  match u.getLast? with
  | some c => some c
  | none => prev

/-- The shape of any token produced by the `re.findall(r"[a-z']+|<num>", ...)`
scan: either the literal placeholder or a non-empty run over `[a-z']`. -/
def AtomicTok (t : Str) : Prop :=
  t = numTok ∨ (t ≠ [] ∧ ∀ c ∈ t, isTokCls c = true)

/-- Shape of the running best of the dynamic program when both sequences are
the same list of length `n`: still the initial `(0, 0, 0)`, or a diagonal
block `(bi, bi, bs)` lying inside the sequence. -/
def DiagBest (n : Nat) (r : Nat × Nat × Nat) : Prop :=
  r = (0, 0, 0) ∨ (r.1 = r.2.1 ∧ 1 ≤ r.2.2 ∧ r.1 + r.2.2 ≤ n)

/-!
General helper lemmas.
-/

theorem list_takeWhile_all {α : Type} {p : α → Bool} :
    ∀ {l : List α}, (∀ c ∈ l, p c) → l.takeWhile p = l := by
  intro l
  induction l with
  | nil => intro _; rfl
  | cons c t ih =>
    intro h
    simp only [List.takeWhile_cons, h c (by simp), if_true]
    rw [ih (fun x hx => h x (by simp [hx]))]

theorem list_dropWhile_all {α : Type} {p : α → Bool} :
    ∀ {l : List α}, (∀ c ∈ l, p c) → l.dropWhile p = [] := by
  intro l
  induction l with
  | nil => intro _; rfl
  | cons c t ih =>
    intro h
    simp only [List.dropWhile_cons, h c (by simp), if_true]
    exact ih (fun x hx => h x (by simp [hx]))

theorem isDigit_toNat {c : Char} (h : isDigitCh c = true) :
    48 ≤ c.toNat ∧ c.toNat ≤ 57 := by
  simp only [isDigitCh, Char.isDigit, ge_iff_le, Bool.and_eq_true,
    decide_eq_true_eq] at h
  obtain ⟨h1, h2⟩ := h
  exact ⟨h1, h2⟩

theorem toLower_eq_self {c : Char} (h : ¬(65 ≤ c.toNat ∧ c.toNat ≤ 90)) :
    c.toLower = c := by
  show (let n := c.toNat; if n ≥ 65 ∧ n ≤ 90 then Char.ofNat (n + 32) else c) = c
  simp only []
  rw [if_neg]
  exact fun hc => h ⟨hc.1, hc.2⟩

theorem toLower_digit {c : Char} (h : isDigitCh c = true) : c.toLower = c := by
  have hb := isDigit_toNat h
  exact toLower_eq_self (by omega)

theorem pyLower_digits {d : Str} (hd : ∀ c ∈ d, isDigitCh c) : pyLower d = d := by
  induction d with
  | nil => rfl
  | cons c t ih =>
    show (c :: t).map Char.toLower = c :: t
    rw [List.map_cons, toLower_digit (hd c (by simp))]
    have := ih (fun x hx => hd x (by simp [hx]))
    rw [show t.map Char.toLower = pyLower t from rfl, this]

theorem goSubF_nil (f : Nat) (p : Option Char) : goSubF f p [] = [] := by
  cases f <;> rfl

theorem numMatch_digits {d : Str} (prev : Option Char)
    (hb : boundaryBefore prev = true) (hne : d ≠ [])
    (hd : ∀ c ∈ d, isDigitCh c) : numMatch prev d = some (d, []) := by
  cases d with
  | nil => exact absurd rfl hne
  | cons c t =>
    have hc : isDigitCh c = true := hd c (by simp)
    unfold numMatch
    rw [hb]
    simp only [Bool.not_true, Bool.false_eq_true, if_false, hc, if_neg]
    rw [list_takeWhile_all hd, list_dropWhile_all hd]
    rfl

theorem subNum_digits {d : Str} (hne : d ≠ []) (hd : ∀ c ∈ d, isDigitCh c) :
    subNum d = numTok := by
  cases d with
  | nil => exact absurd rfl hne
  | cons c t =>
    show goSubF (c :: t).length none (c :: t) = numTok
    rw [List.length_cons]
    simp only [goSubF, numMatch_digits none rfl hne hd, goSubF_nil,
      List.append_nil]

theorem tokenize_digits {d : Str} (hne : d ≠ []) (hd : ∀ c ∈ d, isDigitCh c) :
    tokenize d = [numTok] := by
  unfold tokenize normalize_text_for_scoring
  rw [pyLower_digits hd, subNum_digits hne hd]
  decide

/-- C2: if the reference tokenizes to the empty sequence, the scorer
short-circuits to `(0.0, [], [], tokenize(hyp), [])` (in the code the
alignment step is not invoked on this path). -/
theorem claim_C2_empty_ref (ref hyp : Str) (h : tokenize ref = []) :
    score_and_mismatches ref hyp = (0, [], [], tokenize hyp, []) := by
  unfold score_and_mismatches
  simp [h]

theorem claim_C2_witness :
    tokenize "?!".data = [] ∧
    score_and_mismatches "?!".data "hello there".data =
      (0, [], [], tokenize "hello there".data, []) :=
  ⟨by decide, claim_C2_empty_ref "?!".data "hello there".data (by decide)⟩

/-- C9: the scorer is a deterministic pure function of its two string
arguments: equal inputs give equal five-tuples.  In this embedding
`score_and_mismatches` is a closed function of its arguments (the Python
function reads no mutable state; `NUM_WORDS` is a constant), so determinism
is congruence. -/
theorem claim_C9_deterministic (r1 h1 r2 h2 : Str) (hr : r1 = r2) (hh : h1 = h2) :
    score_and_mismatches r1 h1 = score_and_mismatches r2 h2 := by
  rw [hr, hh]

theorem claim_C9_witness :
    score_and_mismatches "see you".data "see me".data =
      score_and_mismatches "see you".data "see me".data :=
  claim_C9_deterministic "see you".data "see me".data "see you".data "see me".data
    rfl rfl

/-- C1, counterexample to the claim as stated: `"!"` is a non-empty input
string, yet `score("!", "!")` returns score `0.0` (its token sequence is
empty, so the empty-reference short-circuit fires), not `100.0`. -/
theorem claim_C1_counterexample :
    "!".data ≠ [] ∧
    score_and_mismatches "!".data "!".data = (0, [], [], [], []) ∧
    (0 : ℚ) ≠ 100 := by
  decide

/-- C3, counterexample to the claim as stated: in `"x5"` the maximal digit
run `"5"` is NOT replaced by the placeholder (the regex `\b\d+(?:[.,]\d+)?\b`
requires a word boundary before the run, and `x` is a word character), so the
digit is silently dropped by word extraction instead of becoming `<num>`. -/
theorem claim_C3_counterexample :
    subNum (pyLower "x5".data) = "x5".data ∧
    tokenize "x5".data = ["x".data] ∧
    numTok ∉ tokenize "x5".data := by
  decide

/-- C10, counterexample to the claim as stated: with `max_items = 0` the
function still returns one item, because the bound is only checked after an
append (`if len(out) >= max_items: break`). -/
theorem claim_C10_counterexample :
    practice_items_from_mismatches [⟨"replace".data, "a".data, "b".data⟩] 0 =
      ["a".data] ∧
    ¬((practice_items_from_mismatches
        [⟨"replace".data, "a".data, "b".data⟩] 0).length ≤ 0) := by
  decide

/-- C4: spelled-out number words of the fixed vocabulary and digit sequences
both tokenize to the same placeholder `<num>`; in particular
`tokenize("twenty dogs, 20 cats") = ["<num>", "dogs", "<num>", "cats"]`. -/
theorem claim_C4_number_placeholder :
    (∀ w ∈ NUM_WORDS, tokenize w = [numTok]) ∧
    (∀ d : Str, d ≠ [] → (∀ c ∈ d, isDigitCh c) → tokenize d = [numTok]) ∧
    tokenize "twenty dogs, 20 cats".data =
      [numTok, "dogs".data, numTok, "cats".data] :=
  ⟨by decide, fun _ h1 h2 => tokenize_digits h1 h2, by decide⟩

theorem claim_C4_witness : tokenize "20".data = [numTok] :=
  claim_C4_number_placeholder.2.1 "20".data (by decide) (by decide)

/-!
C10: `practice_items_from_mismatches`.
-/

theorem leadsWith_iff {p : Str} : ∀ {s : Str}, leadsWith p s = true ↔ p <+: s := by
  induction p with
  | nil => intro s; simp [leadsWith, List.nil_prefix]
  | cons a ps ih =>
    intro s
    cases s with
    | nil => simp [leadsWith]
    | cons c t =>
      simp only [leadsWith, Bool.and_eq_true, beq_iff_eq, List.cons_prefix_cons, ih]

theorem infix_cons_elim {α : Type} {l : List α} {a : α} {t : List α}
    (h : l <:+: a :: t) : l <+: a :: t ∨ l <:+: t := by
  obtain ⟨pre, post, he⟩ := h
  cases pre with
  | nil => exact Or.inl ⟨post, by simpa using he⟩
  | cons p0 ps =>
    refine Or.inr ⟨ps, post, ?_⟩
    have h2 : p0 :: (ps ++ l ++ post) = a :: t := by
      rw [← he]; simp [List.append_assoc]
    exact (List.cons_eq_cons.mp h2).2

theorem single_prefix {a : Char} {l : Str} : [a] <+: l ↔ l.head? = some a := by
  cases l with
  | nil => simp
  | cons c t => simp [List.cons_prefix_cons, eq_comm]

theorem infix_append_drop {α : Type} {p : List α} {hd : α} :
    ∀ {x y : List α}, p <:+: x ++ y → p.head? = some hd → hd ∉ x → p <:+: y := by
  intro x
  induction x with
  | nil => intro y h _ _; simpa using h
  | cons a xs ih =>
    intro y h hh hm
    rw [List.cons_append] at h
    rcases infix_cons_elim h with hpre | hinf
    · exfalso
      cases p with
      | nil => simp at hh
      | cons p0 ps =>
        have h0 : p0 = hd := by simpa using hh
        have ha : p0 = a := (List.cons_prefix_cons.mp hpre).1
        exact hm (by rw [← h0, ha]; exact List.mem_cons_self a xs)
    · exact ih hinf hh (fun hc => hm (List.mem_cons_of_mem a hc))

theorem pyReplaceF_head (f : Nat) {s : Str} (h : s.head? ≠ some '>') :
    (pyReplaceF numTok "number".data f s).head? ≠ some '>' := by
  cases f with
  | zero => exact h
  | succ f =>
    unfold pyReplaceF
    split
    · intro hc
      rw [show ("number".data ++
            pyReplaceF numTok "number".data f (s.drop numTok.length)) =
          'n' :: ("umber".data ++
            pyReplaceF numTok "number".data f (s.drop numTok.length)) from rfl] at hc
      simp at hc
    · cases s with
      | nil => simp
      | cons c t => simpa using h

theorem pyReplaceF_mgt (f : Nat) {s : Str} (h : ¬("m>".data <+: s)) :
    ¬("m>".data <+: pyReplaceF numTok "number".data f s) := by
  cases f with
  | zero => exact h
  | succ f =>
    unfold pyReplaceF
    split
    · intro hc
      rw [show ("number".data ++
            pyReplaceF numTok "number".data f (s.drop numTok.length)) =
          'n' :: ("umber".data ++
            pyReplaceF numTok "number".data f (s.drop numTok.length)) from rfl] at hc
      have := (List.cons_prefix_cons.mp hc).1
      simp at this
    · cases s with
      | nil => intro hc; simp at hc
      | cons c t =>
        intro hc
        obtain ⟨hce, hrest⟩ := List.cons_prefix_cons.mp hc
        have h2 : t.head? ≠ some '>' := by
          intro he
          exact h (by
            rw [← hce]
            exact List.cons_prefix_cons.mpr ⟨rfl, single_prefix.mpr he⟩)
        exact pyReplaceF_head f h2 ( single_prefix.mp hrest)

theorem pyReplaceF_umgt (f : Nat) {s : Str} (h : ¬("um>".data <+: s)) :
    ¬("um>".data <+: pyReplaceF numTok "number".data f s) := by
  cases f with
  | zero => exact h
  | succ f =>
    unfold pyReplaceF
    split
    · intro hc
      rw [show ("number".data ++
            pyReplaceF numTok "number".data f (s.drop numTok.length)) =
          'n' :: ("umber".data ++
            pyReplaceF numTok "number".data f (s.drop numTok.length)) from rfl] at hc
      have := (List.cons_prefix_cons.mp hc).1
      simp at this
    · cases s with
      | nil => intro hc; simp at hc
      | cons c t =>
        intro hc
        obtain ⟨hce, hrest⟩ := List.cons_prefix_cons.mp hc
        have h2 : ¬("m>".data <+: t) := by
          intro he
          exact h (by rw [← hce]; exact List.cons_prefix_cons.mpr ⟨rfl, he⟩)
        exact pyReplaceF_mgt f h2 hrest

theorem pyReplaceF_numgt (f : Nat) {s : Str} (h : ¬("num>".data <+: s)) :
    ¬("num>".data <+: pyReplaceF numTok "number".data f s) := by
  cases f with
  | zero => exact h
  | succ f =>
    unfold pyReplaceF
    split
    · intro hc
      rw [show ("number".data ++
            pyReplaceF numTok "number".data f (s.drop numTok.length)) =
          'n' :: 'u' :: 'm' :: 'b' :: ("er".data ++
            pyReplaceF numTok "number".data f (s.drop numTok.length)) from rfl] at hc
      simp [List.cons_prefix_cons] at hc
    · cases s with
      | nil => intro hc; simp at hc
      | cons c t =>
        intro hc
        obtain ⟨hce, hrest⟩ := List.cons_prefix_cons.mp hc
        have h2 : ¬("um>".data <+: t) := by
          intro he
          exact h (by rw [← hce]; exact List.cons_prefix_cons.mpr ⟨rfl, he⟩)
        exact pyReplaceF_umgt f h2 hrest

theorem pyReplaceF_no_numTok : ∀ (f : Nat) {s : Str}, s.length ≤ f →
    ¬(numTok <:+: pyReplaceF numTok "number".data f s) := by
  intro f
  induction f with
  | zero =>
    intro s hl
    have hs : s = [] := List.eq_nil_of_length_eq_zero (Nat.le_zero.mp hl)
    subst hs
    intro hc
    rw [show pyReplaceF numTok "number".data 0 [] = [] from rfl] at hc
    have h0 : numTok = [] := by simpa using hc
    exact absurd h0 (by decide)
  | succ f ih =>
    intro s hl
    unfold pyReplaceF
    split
    · next hleads =>
      intro hc
      have hdrop : numTok <:+:
          pyReplaceF numTok "number".data f (s.drop numTok.length) := by
        refine infix_append_drop hc rfl ?_
        decide
      have hlen : (s.drop numTok.length).length ≤ f := by
        rw [List.length_drop]
        have h5 : numTok.length = 5 := by decide
        have := leadsWith_iff.mp hleads
        have := this.length_le
        omega
      exact ih hlen hdrop
    · next hleads =>
      cases s with
      | nil =>
        intro hc
        have h0 : numTok = [] := by simpa using hc
        exact absurd h0 (by decide)
      | cons c t =>
        intro hc
        rcases infix_cons_elim hc with hpre | hinf
        · obtain ⟨hce, hrest⟩ := List.cons_prefix_cons.mp hpre
          have hnt : ¬("num>".data <+: t) := by
            intro he
            apply hleads
            rw [← hce] at *
            exact leadsWith_iff.mpr (List.cons_prefix_cons.mpr ⟨rfl, he⟩)
          exact pyReplaceF_numgt f hnt hrest
        · exact ih (by simp at hl; omega) hinf

theorem pyReplace_ne_nil {s : Str} (hs : s ≠ []) :
    pyReplace s numTok "number".data ≠ [] := by
  unfold pyReplace
  cases hf : s.length with
  | zero => exact absurd (List.eq_nil_of_length_eq_zero hf) hs
  | succ f =>
    unfold pyReplaceF
    split
    · simp
    · cases s with
      | nil => exact absurd rfl hs
      | cons c t => simp

theorem pyReplace_eq_or_infix : ∀ (f : Nat) (s : Str),
    pyReplaceF numTok "number".data f s = s ∨
    "number".data <:+: pyReplaceF numTok "number".data f s := by
  intro f
  induction f with
  | zero => intro s; exact Or.inl rfl
  | succ f ih =>
    intro s
    unfold pyReplaceF
    split
    · exact Or.inr (List.prefix_append "number".data _).isInfix
    · cases s with
      | nil => exact Or.inl rfl
      | cons c t =>
        rcases ih t with h | h
        · refine Or.inl ?_
          show c :: pyReplaceF numTok "number".data f t = c :: t
          rw [h]
        · refine Or.inr ?_
          show "number".data <:+: c :: pyReplaceF numTok "number".data f t
          exact List.infix_cons h

theorem practiceLoop_cons (n : Nat) (m : Mismatch) (rest : List Mismatch)
    (seen out : List Str) :
    practiceLoop n (m :: rest) seen out =
      if pyStrip m.ref = [] ∨ pyStrip m.ref = "(extra)".data then
        practiceLoop n rest seen out
      else if pyReplace (pyStrip m.ref) numTok "number".data ∈ seen then
        practiceLoop n rest seen out
      else if n ≤ out.length + 1 then
        out ++ [pyReplace (pyStrip m.ref) numTok "number".data]
      else
        practiceLoop n rest
          (pyReplace (pyStrip m.ref) numTok "number".data :: seen)
          (out ++ [pyReplace (pyStrip m.ref) numTok "number".data]) := rfl

theorem keptItem_def (m : Mismatch) :
    keptItem m =
      if pyStrip m.ref = [] ∨ pyStrip m.ref = "(extra)".data then none
      else some (pyReplace (pyStrip m.ref) numTok "number".data) := rfl

theorem dedupFirst_cons (x : Str) (t seen : List Str) :
    dedupFirst (x :: t) seen =
      if x ∈ seen then dedupFirst t seen else x :: dedupFirst t (x :: seen) := rfl

theorem practiceLoop_eq (n : Nat) : ∀ (ms : List Mismatch) (seen out : List Str),
    out.length < max 1 n →
    practiceLoop n ms seen out =
      out ++ (dedupFirst (ms.filterMap keptItem) seen).take (max 1 n - out.length) := by
  intro ms
  induction ms with
  | nil => intro seen out _; simp [practiceLoop, dedupFirst]
  | cons m rest ih =>
    intro seen out h
    by_cases hc : pyStrip m.ref = [] ∨ pyStrip m.ref = "(extra)".data
    · have h1 : practiceLoop n (m :: rest) seen out = practiceLoop n rest seen out := by
        rw [practiceLoop_cons, if_pos hc]
      have h2 : (m :: rest).filterMap keptItem = rest.filterMap keptItem := by
        simp only [List.filterMap_cons, keptItem_def, if_pos hc]
      rw [h1, h2]
      exact ih seen out h
    · have hk : (m :: rest).filterMap keptItem =
          pyReplace (pyStrip m.ref) numTok "number".data :: rest.filterMap keptItem := by
        simp only [List.filterMap_cons, keptItem_def, if_neg hc]
      rw [hk]
      by_cases hseen : pyReplace (pyStrip m.ref) numTok "number".data ∈ seen
      · have h1 : practiceLoop n (m :: rest) seen out = practiceLoop n rest seen out := by
          rw [practiceLoop_cons, if_neg hc, if_pos hseen]
        rw [h1, dedupFirst_cons, if_pos hseen]
        exact ih seen out h
      · rw [dedupFirst_cons, if_neg hseen]
        by_cases hbreak : n ≤ out.length + 1
        · have h1 : practiceLoop n (m :: rest) seen out =
              out ++ [pyReplace (pyStrip m.ref) numTok "number".data] := by
            rw [practiceLoop_cons, if_neg hc, if_neg hseen, if_pos hbreak]
          rw [h1]
          have hm : max 1 n - out.length = 1 := by omega
          rw [hm]
          simp
        · have h1 : practiceLoop n (m :: rest) seen out =
              practiceLoop n rest
                (pyReplace (pyStrip m.ref) numTok "number".data :: seen)
                (out ++ [pyReplace (pyStrip m.ref) numTok "number".data]) := by
            rw [practiceLoop_cons, if_neg hc, if_neg hseen, if_neg hbreak]
          rw [h1, ih _ _ (by simp; omega)]
          have hm : max 1 n - out.length = (max 1 n - (out.length + 1)) + 1 := by omega
          rw [hm, List.take_succ_cons]
          simp

theorem dedupFirst_subset : ∀ (l seen : List Str), ∀ x ∈ dedupFirst l seen, x ∈ l := by
  intro l
  induction l with
  | nil => intro seen x hx; simp [dedupFirst] at hx
  | cons a t ih =>
    intro seen x hx
    unfold dedupFirst at hx
    split at hx
    · exact List.mem_cons_of_mem a (ih seen x hx)
    · rcases List.mem_cons.mp hx with h | h
      · simp [h]
      · exact List.mem_cons_of_mem a (ih _ x h)

theorem dedupFirst_nodup : ∀ (l seen : List Str),
    (dedupFirst l seen).Nodup ∧ ∀ x ∈ dedupFirst l seen, x ∉ seen := by
  intro l
  induction l with
  | nil => intro seen; simp [dedupFirst]
  | cons a t ih =>
    intro seen
    unfold dedupFirst
    split
    · exact ih seen
    · next hns =>
      obtain ⟨hnd, hmem⟩ := ih (a :: seen)
      constructor
      · refine List.nodup_cons.mpr ⟨?_, hnd⟩
        intro hc
        exact hmem a hc (List.mem_cons_self a seen)
      · intro x hx hxs
        rcases List.mem_cons.mp hx with h | h
        · rw [h] at hxs; exact hns hxs
        · exact hmem x h (List.mem_cons_of_mem a hxs)

/-- C10, amended: the only correction the counterexample forces is the cap,
which is `max 1 max_items` rather than `max_items` (the check `len(out) >=
max_items` runs only after an append, so `max_items = 0` behaves like 1).
Everything else holds as claimed: the result is exactly the first-occurrence
deduplication of the stripped, `<num>`→`number`-rewritten reference texts of
the mismatches, truncated to the cap; its items are pairwise distinct, never
the sentinel `"(extra)"`, never empty, and never contain `"<num>"`. -/
theorem claim_C10_amended (ms : List Mismatch) (max_items : Nat) :
    practice_items_from_mismatches ms max_items =
      (dedupFirst (ms.filterMap keptItem) []).take (max 1 max_items) ∧
    (practice_items_from_mismatches ms max_items).length ≤ max 1 max_items ∧
    (practice_items_from_mismatches ms max_items).Nodup ∧
    [] ∉ practice_items_from_mismatches ms max_items ∧
    "(extra)".data ∉ practice_items_from_mismatches ms max_items ∧
    ∀ s ∈ practice_items_from_mismatches ms max_items, ¬(numTok <:+: s) := by
  have hchar : practice_items_from_mismatches ms max_items =
      (dedupFirst (ms.filterMap keptItem) []).take (max 1 max_items) := by
    unfold practice_items_from_mismatches
    rw [practiceLoop_eq max_items ms [] [] (by simp)]
    simp
  have hmem : ∀ s ∈ practice_items_from_mismatches ms max_items,
      ∃ m ∈ ms, keptItem m = some s := by
    intro s hs
    rw [hchar] at hs
    have hs2 := dedupFirst_subset _ _ s (List.take_subset _ _ hs)
    exact List.mem_filterMap.mp hs2
  have hshape : ∀ s ∈ practice_items_from_mismatches ms max_items,
      ∃ r : Str, r ≠ [] ∧ r ≠ "(extra)".data ∧
        s = pyReplace r numTok "number".data := by
    intro s hs
    obtain ⟨m, _, hk⟩ := hmem s hs
    rw [keptItem_def] at hk
    split at hk
    · exact absurd hk (by simp)
    · next hcond =>
      refine ⟨pyStrip m.ref, ?_, ?_, (Option.some_inj.mp hk).symm⟩
      · intro hc; exact hcond (Or.inl hc)
      · intro hc; exact hcond (Or.inr hc)
  refine ⟨hchar, ?_, ?_, ?_, ?_, ?_⟩
  · rw [hchar]; exact List.length_take_le _ _
  · rw [hchar]
    exact (dedupFirst_nodup _ _).1.sublist (List.take_sublist _ _)
  · intro hc
    obtain ⟨r, hr1, _, hre⟩ := hshape [] hc
    exact pyReplace_ne_nil hr1 hre.symm
  · intro hc
    obtain ⟨r, _, hr2, hre⟩ := hshape "(extra)".data hc
    rcases pyReplace_eq_or_infix r.length r with h | h
    · apply hr2
      have he : pyReplace r numTok "number".data = r := h
      rw [he] at hre
      exact hre.symm
    · have h2 : "number".data <:+: "(extra)".data := by
        rw [hre]
        exact h
      exact absurd h2 (by decide)
  · intro s hs hc
    obtain ⟨r, _, _, hre⟩ := hshape s hs
    rw [hre] at hc
    exact pyReplaceF_no_numTok r.length (Nat.le_refl _) hc

theorem claim_C10_witness :
    (practice_items_from_mismatches
      [⟨"replace".data, "fox".data, "dog".data⟩] 2).length ≤ max 1 2 :=
  (claim_C10_amended [⟨"replace".data, "fox".data, "dog".data⟩] 2).2.1

/-!
C5: the mismatch list is exactly one record per non-`equal` opcode, in span
order.
-/

theorem processOps_cons (rt ht : List Str) (op : Op) (rest : List Op) (m : Nat)
    (mm : List Mismatch) (marks : List Str) :
    processOps rt ht (op :: rest) (m, mm, marks) =
      match op.tag with
      | Tag.equal => processOps rt ht rest (m + (op.i2 - op.i1), mm, marks)
      | Tag.replace =>
        processOps rt ht rest
          (m, mm ++ [⟨"replace".data, sliceJoin rt op.i1 op.i2,
            sliceJoin ht op.j1 op.j2⟩], markBad marks op.i1 op.i2)
      | Tag.delete =>
        processOps rt ht rest
          (m, mm ++ [⟨"delete".data, sliceJoin rt op.i1 op.i2,
            "(missing)".data⟩], markBad marks op.i1 op.i2)
      | Tag.insert =>
        processOps rt ht rest
          (m, mm ++ [⟨"insert".data, "(extra)".data,
            sliceJoin ht op.j1 op.j2⟩], marks) := rfl

theorem score_and_mismatches_def (ref hyp : Str) :
    score_and_mismatches ref hyp =
      if tokenize ref = [] then (0, [], tokenize ref, tokenize hyp, [])
      else
        (mkRat (100 * (processOps (tokenize ref) (tokenize hyp)
            (align_words (tokenize ref) (tokenize hyp))
            (0, [], List.replicate (tokenize ref).length "ok".data)).1)
          (max 1 (tokenize ref).length),
         (processOps (tokenize ref) (tokenize hyp)
            (align_words (tokenize ref) (tokenize hyp))
            (0, [], List.replicate (tokenize ref).length "ok".data)).2.1,
         tokenize ref, tokenize hyp,
         (processOps (tokenize ref) (tokenize hyp)
            (align_words (tokenize ref) (tokenize hyp))
            (0, [], List.replicate (tokenize ref).length "ok".data)).2.2) := rfl

theorem outTuple_score (a : ℚ) (b : List Mismatch) (c d e : List Str) :
    ((a, b, c, d, e) : ℚ × List Mismatch × List Str × List Str × List Str).1 =
      a := rfl

theorem outTuple_mm (a : ℚ) (b : List Mismatch) (c d e : List Str) :
    ((a, b, c, d, e) : ℚ × List Mismatch × List Str × List Str × List Str).2.1 =
      b := rfl

theorem outTuple_marks (a : ℚ) (b : List Mismatch) (c d e : List Str) :
    ((a, b, c, d, e) :
      ℚ × List Mismatch × List Str × List Str × List Str).2.2.2.2 = e := rfl

theorem processOps_mm (rt ht : List Str) : ∀ (ops : List Op) (m : Nat)
    (mm : List Mismatch) (marks : List Str),
    (processOps rt ht ops (m, mm, marks)).2.1 =
      mm ++ ops.filterMap (mismatchOf rt ht) := by
  intro ops
  induction ops with
  | nil => intro m mm marks; simp [processOps]
  | cons op rest ih =>
    intro m mm marks
    rw [processOps_cons]
    cases htag : op.tag <;>
      simp [htag, ih, mismatchOf, List.filterMap_cons]

/-- C5: when the reference tokenizes non-empty (so that alignment runs), the
returned mismatch list is exactly `filterMap` of the per-opcode record over
the alignment spans, in left-to-right span order: one record per non-`equal`
span, with the sentinel `"(extra)"` as reference text of an `insert` span,
the sentinel `"(missing)"` as hypothesis text of a `delete` span, and the
space-joined span texts for a `replace`; `equal` spans produce no record. -/
theorem claim_C5_mismatch_records (ref hyp : Str) (h : tokenize ref ≠ []) :
    (score_and_mismatches ref hyp).2.1 =
      (align_words (tokenize ref) (tokenize hyp)).filterMap
        (mismatchOf (tokenize ref) (tokenize hyp)) := by
  rw [score_and_mismatches_def, if_neg h, outTuple_mm]
  rw [processOps_mm]
  simp

theorem claim_C5_witness :
    ((score_and_mismatches "the quick brown fox".data "the quick brown dog".data).2.1 =
      (align_words (tokenize "the quick brown fox".data)
          (tokenize "the quick brown dog".data)).filterMap
        (mismatchOf (tokenize "the quick brown fox".data)
          (tokenize "the quick brown dog".data))) ∧
    (score_and_mismatches "the quick brown fox".data
        "the quick brown dog".data).2.1 =
      [⟨"replace".data, "fox".data, "dog".data⟩] :=
  ⟨claim_C5_mismatch_records "the quick brown fox".data
    "the quick brown dog".data (by decide), by decide⟩

/-!
Structural bounds for `find_longest_match`: the result is either the empty
match `(alo, blo, 0)` or a nonempty span inside `[alo, ahi] × [blo, bhi]`
(`FlmP`).  This is what the block recursion and the opcode chain rest on.
-/

theorem dpInner_cons (blo bhi i : Nat) (old : List (Nat × Nat)) (j : Nat)
    (js : List Nat) (acc : List (Nat × Nat)) (best : Nat × Nat × Nat) :
    dpInner blo bhi i old (j :: js) acc best =
      if j < blo then dpInner blo bhi i old js acc best
      else if bhi ≤ j then (acc, best)
      else
        dpInner blo bhi i old js
          ((j, (if j = 0 then 0 else lookupJ2 old (j - 1)) + 1) :: acc)
          (if best.2.2 < (if j = 0 then 0 else lookupJ2 old (j - 1)) + 1 then
            (i + 1 - ((if j = 0 then 0 else lookupJ2 old (j - 1)) + 1),
             j + 1 - ((if j = 0 then 0 else lookupJ2 old (j - 1)) + 1),
             (if j = 0 then 0 else lookupJ2 old (j - 1)) + 1)
          else best) := rfl

theorem dpLoop_cons (a b : List Str) (blo bhi i : Nat) (is : List Nat)
    (j2 : List (Nat × Nat)) (best : Nat × Nat × Nat) :
    dpLoop a b blo bhi (i :: is) j2 best =
      dpLoop a b blo bhi is
        (dpInner blo bhi i j2 (b2j b (a.getD i [])) [] best).1
        (dpInner blo bhi i j2 (b2j b (a.getD i [])) [] best).2 := rfl

theorem extendBackF_succ (a b : List Str) (alo blo f : Nat)
    (bi bj bs : Nat) :
    extendBackF a b alo blo (f + 1) (bi, bj, bs) =
      if (alo < bi && blo < bj &&
          (a.getD (bi - 1) [] == b.getD (bj - 1) [])) = true then
        extendBackF a b alo blo f (bi - 1, bj - 1, bs + 1)
      else (bi, bj, bs) := rfl

theorem extendFwdF_succ (a b : List Str) (ahi bhi f : Nat) (bi bj bs : Nat) :
    extendFwdF a b ahi bhi (f + 1) (bi, bj, bs) =
      if (bi + bs < ahi && bj + bs < bhi &&
          (a.getD (bi + bs) [] == b.getD (bj + bs) [])) = true then
        extendFwdF a b ahi bhi f (bi, bj, bs + 1)
      else (bi, bj, bs) := rfl

theorem lookupJ2_cases (l : List (Nat × Nat)) (j : Nat) :
    lookupJ2 l j = 0 ∨ ∃ p ∈ l, p.1 = j ∧ lookupJ2 l j = p.2 := by
  unfold lookupJ2
  cases hf : l.find? (fun p => p.1 == j) with
  | none => exact Or.inl rfl
  | some p =>
    refine Or.inr ⟨p, List.mem_of_find?_eq_some hf, ?_, rfl⟩
    have := List.find?_some hf
    simpa using this

theorem dpInner_P {alo blo bhi ahi i : Nat} (hi1 : alo ≤ i) (hi2 : i < ahi)
    (old : List (Nat × Nat))
    (hold : ∀ p ∈ old, p.2 ≤ i - alo ∧ p.2 + blo ≤ p.1 + 1) :
    ∀ (js : List Nat) (acc : List (Nat × Nat)) (best : Nat × Nat × Nat),
    (∀ p ∈ acc, p.2 ≤ i + 1 - alo ∧ p.2 + blo ≤ p.1 + 1) →
    FlmP alo blo ahi bhi best →
    (∀ p ∈ (dpInner blo bhi i old js acc best).1,
        p.2 ≤ i + 1 - alo ∧ p.2 + blo ≤ p.1 + 1) ∧
    FlmP alo blo ahi bhi (dpInner blo bhi i old js acc best).2 := by
  intro js
  induction js with
  | nil =>
    intro acc best hacc hbest
    exact ⟨hacc, hbest⟩
  | cons j js ih =>
    intro acc best hacc hbest
    rw [dpInner_cons]
    by_cases h1 : j < blo
    · rw [if_pos h1]
      exact ih acc best hacc hbest
    · rw [if_neg h1]
      by_cases h2 : bhi ≤ j
      · rw [if_pos h2]
        exact ⟨hacc, hbest⟩
      · rw [if_neg h2]
        have hjb : blo ≤ j := Nat.le_of_not_lt h1
        have hjh : j < bhi := Nat.lt_of_not_le h2
        set k := (if j = 0 then 0 else lookupJ2 old (j - 1)) + 1 with hkdef
        have hk0 : 1 ≤ k := by rw [hkdef]; omega
        have hk1 : k ≤ i + 1 - alo ∧ k + blo ≤ j + 1 := by
          rw [hkdef]
          by_cases hj0 : j = 0
          · rw [if_pos hj0]
            omega
          · rw [if_neg hj0]
            rcases lookupJ2_cases old (j - 1) with hl | ⟨q, hq, hqj, hqe⟩
            · rw [hl]; omega
            · have hb := hold q hq
              rw [hqe]
              omega
        refine ih _ _ ?_ ?_
        · intro p hp
          rcases List.mem_cons.mp hp with h | h
          · rw [h]
            exact ⟨hk1.1, hk1.2⟩
          · exact hacc p h
        · by_cases hlt : best.2.2 < k
          · rw [if_pos hlt]
            refine Or.inr ⟨?_, ?_, ?_, ?_, ?_⟩
            · show 1 ≤ k
              omega
            · show alo ≤ i + 1 - k
              omega
            · show blo ≤ j + 1 - k
              omega
            · show i + 1 - k + k ≤ ahi
              omega
            · show j + 1 - k + k ≤ bhi
              omega
          · rw [if_neg hlt]
            exact hbest

theorem dpLoop_P (a b : List Str) {alo blo bhi ahi : Nat} :
    ∀ (m i0 : Nat), alo ≤ i0 → (m ≠ 0 → i0 + m ≤ ahi) →
    ∀ (j2 : List (Nat × Nat)) (best : Nat × Nat × Nat),
    (∀ p ∈ j2, p.2 ≤ i0 - alo ∧ p.2 + blo ≤ p.1 + 1) →
    FlmP alo blo ahi bhi best →
    FlmP alo blo ahi bhi (dpLoop a b blo bhi (List.range' i0 m) j2 best) := by
  intro m
  induction m with
  | zero =>
    intro i0 _ _ j2 best _ hbest
    simpa [dpLoop] using hbest
  | succ m ih =>
    intro i0 h1 h2 j2 best hj2 hbest
    rw [List.range'_succ, dpLoop_cons]
    have hi2 : i0 < ahi := by
      have := h2 (by omega)
      omega
    obtain ⟨hacc, hbest2⟩ :=
      dpInner_P h1 hi2 j2 hj2 (b2j b (a.getD i0 [])) [] best (by simp) hbest
    refine ih (i0 + 1) (by omega) (fun hm => by have := h2 (by omega); omega)
      _ _ ?_ hbest2
    intro p hp
    have := hacc p hp
    omega

theorem extendBackF_P (a b : List Str) {alo blo bhi ahi : Nat} :
    ∀ (f : Nat) (best : Nat × Nat × Nat), FlmP alo blo ahi bhi best →
    FlmP alo blo ahi bhi (extendBackF a b alo blo f best) := by
  intro f
  induction f with
  | zero => intro best h; exact h
  | succ f ih =>
    intro best h
    obtain ⟨bi, bj, bs⟩ := best
    rw [extendBackF_succ]
    by_cases hc : (alo < bi && blo < bj &&
        (a.getD (bi - 1) [] == b.getD (bj - 1) [])) = true
    · rw [if_pos hc]
      simp only [Bool.and_eq_true, decide_eq_true_eq] at hc
      have hc1 : alo < bi := hc.1.1
      have hc2 : blo < bj := hc.1.2
      refine ih _ ?_
      have hsum : bi + bs ≤ ahi ∧ bj + bs ≤ bhi := by
        rcases h with h | h
        · exfalso
          have h1 : bi = alo := by
            have := congrArg Prod.fst h
            simpa using this
          omega
        · exact ⟨h.2.2.2.1, h.2.2.2.2⟩
      refine Or.inr ⟨?_, ?_, ?_, ?_, ?_⟩
      · show 1 ≤ bs + 1
        omega
      · show alo ≤ bi - 1
        omega
      · show blo ≤ bj - 1
        omega
      · show bi - 1 + (bs + 1) ≤ ahi
        omega
      · show bj - 1 + (bs + 1) ≤ bhi
        omega
    · rw [if_neg hc]
      exact h

theorem extendFwdF_P (a b : List Str) {alo blo bhi ahi : Nat} :
    ∀ (f : Nat) (best : Nat × Nat × Nat), FlmP alo blo ahi bhi best →
    FlmP alo blo ahi bhi (extendFwdF a b ahi bhi f best) := by
  intro f
  induction f with
  | zero => intro best h; exact h
  | succ f ih =>
    intro best h
    obtain ⟨bi, bj, bs⟩ := best
    rw [extendFwdF_succ]
    by_cases hc : (bi + bs < ahi && bj + bs < bhi &&
        (a.getD (bi + bs) [] == b.getD (bj + bs) [])) = true
    · rw [if_pos hc]
      simp only [Bool.and_eq_true, decide_eq_true_eq] at hc
      have hc1 : bi + bs < ahi := hc.1.1
      have hc2 : bj + bs < bhi := hc.1.2
      refine ih _ ?_
      have halo : alo ≤ bi ∧ blo ≤ bj := by
        rcases h with h | h
        · have h1 : bi = alo := by
            have := congrArg Prod.fst h
            simpa using this
          have h2 : bj = blo := by
            have := congrArg (fun r => r.2.1) h
            simpa using this
          omega
        · exact ⟨h.2.1, h.2.2.1⟩
      refine Or.inr ⟨?_, ?_, ?_, ?_, ?_⟩
      · show 1 ≤ bs + 1
        omega
      · show alo ≤ bi
        exact halo.1
      · show blo ≤ bj
        exact halo.2
      · show bi + (bs + 1) ≤ ahi
        omega
      · show bj + (bs + 1) ≤ bhi
        omega
    · rw [if_neg hc]
      exact h

theorem flm_P (a b : List Str) (alo ahi blo bhi : Nat) :
    FlmP alo blo ahi bhi (find_longest_match a b alo ahi blo bhi) := by
  unfold find_longest_match
  apply extendFwdF_P
  apply extendBackF_P
  apply dpLoop_P a b (ahi - alo) alo (Nat.le_refl alo) (by omega) [] _
    (by simp)
  exact Or.inl rfl

theorem flm_bounds {a b : List Str} {alo ahi blo bhi : Nat}
    (h : (find_longest_match a b alo ahi blo bhi).2.2 ≠ 0) :
    1 ≤ (find_longest_match a b alo ahi blo bhi).2.2 ∧
    alo ≤ (find_longest_match a b alo ahi blo bhi).1 ∧
    blo ≤ (find_longest_match a b alo ahi blo bhi).2.1 ∧
    (find_longest_match a b alo ahi blo bhi).1 +
      (find_longest_match a b alo ahi blo bhi).2.2 ≤ ahi ∧
    (find_longest_match a b alo ahi blo bhi).2.1 +
      (find_longest_match a b alo ahi blo bhi).2.2 ≤ bhi := by
  rcases flm_P a b alo ahi blo bhi with hc | hc
  · exfalso
    apply h
    rw [hc]
  · exact hc

/-!
Chain structure of the matching blocks and of the opcode list.
-/

theorem BlocksB_nil {ahi bhi alo blo : Nat} : BlocksB ahi bhi alo blo [] :=
  trivial

theorem BlocksB_cons {ahi bhi alo blo i j k : Nat} {l : List (Nat × Nat × Nat)} :
    BlocksB ahi bhi alo blo ((i, j, k) :: l) ↔
      alo ≤ i ∧ blo ≤ j ∧ 1 ≤ k ∧ i + k ≤ ahi ∧ j + k ≤ bhi ∧
      BlocksB ahi bhi (i + k) (j + k) l := Iff.rfl

theorem BlocksLE_nil {ahi bhi alo blo : Nat} : BlocksLE ahi bhi alo blo [] :=
  trivial

theorem BlocksLE_cons {ahi bhi alo blo i j k : Nat} {l : List (Nat × Nat × Nat)} :
    BlocksLE ahi bhi alo blo ((i, j, k) :: l) ↔
      alo ≤ i ∧ blo ≤ j ∧ i + k ≤ ahi ∧ j + k ≤ bhi ∧
      BlocksLE ahi bhi (i + k) (j + k) l := Iff.rfl

theorem OpsB_nil {la lb i j : Nat} : OpsB la lb i j [] := trivial

theorem OpsB_cons {la lb i j : Nat} {op : Op} {l : List Op} :
    OpsB la lb i j (op :: l) ↔
      op.i1 = i ∧ op.j1 = j ∧ op.i1 ≤ op.i2 ∧ op.j1 ≤ op.j2 ∧
      op.i2 ≤ la ∧ op.j2 ≤ lb ∧
      (op.tag = Tag.insert → op.i1 = op.i2) ∧
      (op.tag = Tag.delete → op.j1 = op.j2) ∧
      OpsB la lb op.i2 op.j2 l := Iff.rfl

theorem BlocksB_mono {ahi bhi : Nat} :
    ∀ {l : List (Nat × Nat × Nat)} {i j alo blo : Nat},
    BlocksB ahi bhi i j l → alo ≤ i → blo ≤ j → BlocksB ahi bhi alo blo l := by
  intro l
  induction l with
  | nil => intro i j alo blo _ _ _; exact BlocksB_nil
  | cons blk rest ih =>
    intro i j alo blo h h1 h2
    obtain ⟨i1, j1, k1⟩ := blk
    rw [BlocksB_cons] at h ⊢
    obtain ⟨q1, q2, q3, q4, q5, q6⟩ := h
    exact ⟨by omega, by omega, q3, q4, q5, q6⟩

theorem BlocksB_append {ahi bhi : Nat} :
    ∀ {l1 l2 : List (Nat × Nat × Nat)} {alo blo i j : Nat},
    BlocksB i j alo blo l1 → BlocksB ahi bhi i j l2 →
    alo ≤ i → blo ≤ j → i ≤ ahi → j ≤ bhi →
    BlocksB ahi bhi alo blo (l1 ++ l2) := by
  intro l1
  induction l1 with
  | nil =>
    intro l2 alo blo i j _ h2 ha hb _ _
    exact BlocksB_mono h2 ha hb
  | cons blk rest ih =>
    intro l2 alo blo i j h1 h2 ha hb hia hjb
    obtain ⟨i1, j1, k1⟩ := blk
    rw [BlocksB_cons] at h1
    obtain ⟨q1, q2, q3, q4, q5, q6⟩ := h1
    rw [List.cons_append, BlocksB_cons]
    exact ⟨q1, q2, q3, by omega, by omega,
      ih q6 h2 (by omega) (by omega) hia hjb⟩

theorem mbF_succ (a b : List Str) (f alo ahi blo bhi : Nat) :
    mbF a b (f + 1) alo ahi blo bhi =
      if (find_longest_match a b alo ahi blo bhi).2.2 = 0 then []
      else
        (if alo < (find_longest_match a b alo ahi blo bhi).1 &&
            blo < (find_longest_match a b alo ahi blo bhi).2.1 then
          mbF a b f alo (find_longest_match a b alo ahi blo bhi).1 blo
            (find_longest_match a b alo ahi blo bhi).2.1
        else []) ++
        (find_longest_match a b alo ahi blo bhi) ::
        (if (find_longest_match a b alo ahi blo bhi).1 +
              (find_longest_match a b alo ahi blo bhi).2.2 < ahi &&
            (find_longest_match a b alo ahi blo bhi).2.1 +
              (find_longest_match a b alo ahi blo bhi).2.2 < bhi then
          mbF a b f
            ((find_longest_match a b alo ahi blo bhi).1 +
              (find_longest_match a b alo ahi blo bhi).2.2) ahi
            ((find_longest_match a b alo ahi blo bhi).2.1 +
              (find_longest_match a b alo ahi blo bhi).2.2) bhi
        else []) := rfl

theorem mbF_blocks (a b : List Str) :
    ∀ (f alo ahi blo bhi : Nat),
    BlocksB ahi bhi alo blo (mbF a b f alo ahi blo bhi) := by
  intro f
  induction f with
  | zero => intro alo ahi blo bhi; exact BlocksB_nil
  | succ f ih =>
    intro alo ahi blo bhi
    rw [mbF_succ]
    by_cases hk : (find_longest_match a b alo ahi blo bhi).2.2 = 0
    · rw [if_pos hk]
      exact BlocksB_nil
    · rw [if_neg hk]
      obtain ⟨q1, q2, q3, q4, q5⟩ := flm_bounds hk
      have hmid : BlocksB ahi bhi (find_longest_match a b alo ahi blo bhi).1
          (find_longest_match a b alo ahi blo bhi).2.1
          ((find_longest_match a b alo ahi blo bhi) ::
            (if (find_longest_match a b alo ahi blo bhi).1 +
                  (find_longest_match a b alo ahi blo bhi).2.2 < ahi &&
                (find_longest_match a b alo ahi blo bhi).2.1 +
                  (find_longest_match a b alo ahi blo bhi).2.2 < bhi then
              mbF a b f
                ((find_longest_match a b alo ahi blo bhi).1 +
                  (find_longest_match a b alo ahi blo bhi).2.2) ahi
                ((find_longest_match a b alo ahi blo bhi).2.1 +
                  (find_longest_match a b alo ahi blo bhi).2.2) bhi
            else [])) := by
        rw [show (find_longest_match a b alo ahi blo bhi) =
            ((find_longest_match a b alo ahi blo bhi).1,
             (find_longest_match a b alo ahi blo bhi).2.1,
             (find_longest_match a b alo ahi blo bhi).2.2) from rfl,
          BlocksB_cons]
        refine ⟨Nat.le_refl _, Nat.le_refl _, q1, q4, q5, ?_⟩
        split
        · exact ih _ _ _ _
        · exact BlocksB_nil
      by_cases hleft : (alo < (find_longest_match a b alo ahi blo bhi).1 &&
          blo < (find_longest_match a b alo ahi blo bhi).2.1) = true
      · rw [if_pos hleft]
        exact BlocksB_append (ih _ _ _ _) hmid q2 q3 (by omega) (by omega)
      · rw [if_neg hleft]
        rw [List.nil_append]
        exact BlocksB_mono hmid q2 q3

theorem BlocksLE_mono {ahi bhi : Nat} :
    ∀ {l : List (Nat × Nat × Nat)} {i j alo blo : Nat},
    BlocksLE ahi bhi i j l → alo ≤ i → blo ≤ j → BlocksLE ahi bhi alo blo l := by
  intro l
  induction l with
  | nil => intro i j alo blo _ _ _; exact BlocksLE_nil
  | cons blk rest ih =>
    intro i j alo blo h h1 h2
    obtain ⟨i1, j1, k1⟩ := blk
    rw [BlocksLE_cons] at h ⊢
    obtain ⟨q1, q2, q3, q4, q5⟩ := h
    exact ⟨by omega, by omega, q3, q4, q5⟩

theorem mergeAdj_cons (cur : Nat × Nat × Nat) (blk : Nat × Nat × Nat)
    (rest : List (Nat × Nat × Nat)) :
    mergeAdj cur (blk :: rest) =
      if cur.1 + cur.2.2 = blk.1 ∧ cur.2.1 + cur.2.2 = blk.2.1 then
        mergeAdj (cur.1, cur.2.1, cur.2.2 + blk.2.2) rest
      else (if cur.2.2 ≠ 0 then [cur] else []) ++ mergeAdj blk rest := by
  obtain ⟨i1, j1, k1⟩ := cur
  obtain ⟨i2, j2, k2⟩ := blk
  rfl

theorem mergeAdj_nil (cur : Nat × Nat × Nat) :
    mergeAdj cur [] = if cur.2.2 ≠ 0 then [cur] else [] := by
  obtain ⟨i1, j1, k1⟩ := cur
  rfl

theorem mergeAdj_LE {ahi bhi : Nat} :
    ∀ (l : List (Nat × Nat × Nat)) (i1 j1 k1 alo blo : Nat),
    alo ≤ i1 → blo ≤ j1 → i1 + k1 ≤ ahi → j1 + k1 ≤ bhi →
    BlocksB ahi bhi (i1 + k1) (j1 + k1) l →
    BlocksLE ahi bhi alo blo (mergeAdj (i1, j1, k1) l) := by
  intro l
  induction l with
  | nil =>
    intro i1 j1 k1 alo blo h1 h2 h3 h4 _
    rw [mergeAdj_nil]
    split
    · rw [BlocksLE_cons]
      exact ⟨h1, h2, h3, h4, BlocksLE_nil⟩
    · exact BlocksLE_nil
  | cons blk rest ih =>
    intro i1 j1 k1 alo blo h1 h2 h3 h4 hb
    obtain ⟨i2, j2, k2⟩ := blk
    rw [BlocksB_cons] at hb
    obtain ⟨q1, q2, q3, q4, q5, q6⟩ := hb
    rw [mergeAdj_cons]
    by_cases hadj : i1 + k1 = i2 ∧ j1 + k1 = j2
    · rw [if_pos hadj]
      have := ih i1 j1 (k1 + k2) alo blo h1 h2 (by omega) (by omega)
        (by rw [show i1 + (k1 + k2) = i2 + k2 by omega,
              show j1 + (k1 + k2) = j2 + k2 by omega]
            exact q6)
      exact this
    · rw [if_neg hadj]
      have htail := ih i2 j2 k2 (i1 + k1) (j1 + k1) q1 q2 q4 q5 q6
      split
      · rw [List.singleton_append, BlocksLE_cons]
        exact ⟨h1, h2, h3, h4, htail⟩
      · rw [List.nil_append]
        exact BlocksLE_mono htail (by omega) (by omega)

theorem BlocksLE_append_term {la lb : Nat} :
    ∀ {l : List (Nat × Nat × Nat)} {alo blo : Nat},
    BlocksLE la lb alo blo l → alo ≤ la → blo ≤ lb →
    BlocksLE la lb alo blo (l ++ [(la, lb, 0)]) := by
  intro l
  induction l with
  | nil =>
    intro alo blo _ h1 h2
    rw [List.nil_append, BlocksLE_cons]
    exact ⟨h1, h2, by omega, by omega, BlocksLE_nil⟩
  | cons blk rest ih =>
    intro alo blo h h1 h2
    obtain ⟨i1, j1, k1⟩ := blk
    rw [BlocksLE_cons] at h
    obtain ⟨q1, q2, q3, q4, q5⟩ := h
    rw [List.cons_append, BlocksLE_cons]
    exact ⟨q1, q2, q3, q4, ih q5 (by omega) (by omega)⟩

theorem get_matching_blocks_LE (a b : List Str) :
    BlocksLE a.length b.length 0 0 (get_matching_blocks a b) := by
  unfold get_matching_blocks
  refine BlocksLE_append_term ?_ (by omega) (by omega)
  exact mergeAdj_LE _ 0 0 0 0 0 (by omega) (by omega) (by omega) (by omega)
    (mbF_blocks a b _ 0 a.length 0 b.length)

theorem OpsB_cons_mk {la lb i j : Nat} {t : Tag} {i1 i2 j1 j2 : Nat}
    {l : List Op}
    (h1 : i1 = i) (h2 : j1 = j) (h3 : i1 ≤ i2) (h4 : j1 ≤ j2)
    (h5 : i2 ≤ la) (h6 : j2 ≤ lb)
    (h7 : t = Tag.insert → i1 = i2) (h8 : t = Tag.delete → j1 = j2)
    (h9 : OpsB la lb i2 j2 l) :
    OpsB la lb i j ((⟨t, i1, i2, j1, j2⟩ : Op) :: l) :=
  ⟨h1, h2, h3, h4, h5, h6, h7, h8, h9⟩

theorem opcodesLoop_cons (i j ai bj size : Nat) (rest : List (Nat × Nat × Nat)) :
    opcodesLoop i j ((ai, bj, size) :: rest) =
      (if i < ai ∧ j < bj then [⟨Tag.replace, i, ai, j, bj⟩]
       else if i < ai then [⟨Tag.delete, i, ai, j, bj⟩]
       else if j < bj then [⟨Tag.insert, i, ai, j, bj⟩]
       else []) ++
      (if size ≠ 0 then [⟨Tag.equal, ai, ai + size, bj, bj + size⟩] else []) ++
      opcodesLoop (ai + size) (bj + size) rest := rfl

theorem opcodesLoop_OpsB {la lb : Nat} :
    ∀ (blocks : List (Nat × Nat × Nat)) (i j : Nat),
    BlocksLE la lb i j blocks → OpsB la lb i j (opcodesLoop i j blocks) := by
  intro blocks
  induction blocks with
  | nil => intro i j _; exact OpsB_nil
  | cons blk rest ih =>
    intro i j h
    obtain ⟨ai, bjj, size⟩ := blk
    rw [BlocksLE_cons] at h
    obtain ⟨q1, q2, q3, q4, q5⟩ := h
    rw [opcodesLoop_cons]
    have hrec := ih (ai + size) (bjj + size) q5
    have heq : OpsB la lb ai bjj
        ((if size ≠ 0 then [⟨Tag.equal, ai, ai + size, bjj, bjj + size⟩]
          else []) ++ opcodesLoop (ai + size) (bjj + size) rest) := by
      split
      · rw [List.singleton_append]
        exact OpsB_cons_mk rfl rfl (by omega) (by omega) q3 q4
          (fun hh => absurd hh (by decide)) (fun hh => absurd hh (by decide))
          hrec
      · next hs =>
        have hs0 : size = 0 := by omega
        rw [List.nil_append]
        simp only [hs0, Nat.add_zero] at hrec ⊢
        exact hrec
    by_cases hii : i < ai
    · by_cases hjj : j < bjj
      · rw [if_pos ⟨hii, hjj⟩, List.singleton_append]
        exact OpsB_cons_mk rfl rfl (by omega) (by omega) (by omega) (by omega)
          (fun hh => absurd hh (by decide)) (fun hh => absurd hh (by decide))
          heq
      · rw [if_neg (fun hh => hjj hh.2), if_pos hii, List.singleton_append]
        exact OpsB_cons_mk rfl rfl (by omega) (by omega) (by omega) (by omega)
          (fun hh => absurd hh (by decide)) (fun _ => by omega) heq
    · by_cases hjj : j < bjj
      · rw [if_neg (fun hh => hii hh.1), if_neg hii, if_pos hjj,
          List.singleton_append]
        exact OpsB_cons_mk rfl rfl (by omega) (by omega) (by omega) (by omega)
          (fun _ => by omega) (fun hh => absurd hh (by decide)) heq
      · rw [if_neg (fun hh => hii hh.1), if_neg hii, if_neg hjj,
          List.nil_append]
        rw [show i = ai by omega, show j = bjj by omega]
        exact heq

/-- The opcode list of `align_words` is a gap-free left-to-right chain from
`(0, 0)` bounded by the two token-sequence lengths. -/
theorem align_words_OpsB (a b : List Str) :
    OpsB a.length b.length 0 0 (align_words a b) :=
  opcodesLoop_OpsB (get_matching_blocks a b) 0 0 (get_matching_blocks_LE a b)

theorem opsB_start_ge {la lb : Nat} :
    ∀ {ops : List Op} {i j : Nat}, OpsB la lb i j ops →
    ∀ op ∈ ops, i ≤ op.i1 := by
  intro ops
  induction ops with
  | nil => intro i j _ op hop; simp at hop
  | cons op0 rest ih =>
    intro i j h op hop
    rw [OpsB_cons] at h
    rcases List.mem_cons.mp hop with he | he
    · rw [he]; omega
    · have := ih h.2.2.2.2.2.2.2.2 op he
      omega

theorem opsB_facts {la lb : Nat} :
    ∀ {ops : List Op} {i j : Nat}, OpsB la lb i j ops →
    ∀ op ∈ ops, op.i1 ≤ op.i2 ∧ op.i2 ≤ la ∧ op.j1 ≤ op.j2 ∧ op.j2 ≤ lb ∧
      (op.tag = Tag.insert → op.i1 = op.i2) ∧
      (op.tag = Tag.delete → op.j1 = op.j2) := by
  intro ops
  induction ops with
  | nil => intro i j _ op hop; simp at hop
  | cons op0 rest ih =>
    intro i j h op hop
    rw [OpsB_cons] at h
    rcases List.mem_cons.mp hop with he | he
    · rw [he]
      exact ⟨h.2.2.1, h.2.2.2.2.1, h.2.2.2.1, h.2.2.2.2.2.1,
        h.2.2.2.2.2.2.1, h.2.2.2.2.2.2.2.1⟩
    · exact ih h.2.2.2.2.2.2.2.2 op he

theorem opsB_equal_not_covered {la lb : Nat} :
    ∀ {ops : List Op} {i j : Nat}, OpsB la lb i j ops →
    ∀ op ∈ ops, op.tag = Tag.equal →
    ∀ pos, op.i1 ≤ pos → pos < op.i2 →
    ∀ op2 ∈ ops, (op2.tag = Tag.replace ∨ op2.tag = Tag.delete) →
    ¬(op2.i1 ≤ pos ∧ pos < op2.i2) := by
  intro ops
  induction ops with
  | nil => intro i j _ op hop; simp at hop
  | cons op0 rest ih =>
    intro i j h op hop htag pos hp1 hp2 op2 hop2 htag2
    rw [OpsB_cons] at h
    rcases List.mem_cons.mp hop with he | he
    · rcases List.mem_cons.mp hop2 with he2 | he2
      · subst he; subst he2
        rcases htag2 with ht | ht <;> rw [htag] at ht <;> exact absurd ht (by decide)
      · have hge := opsB_start_ge h.2.2.2.2.2.2.2.2 op2 he2
        subst he
        intro hcc
        omega
    · rcases List.mem_cons.mp hop2 with he2 | he2
      · have hge := opsB_start_ge h.2.2.2.2.2.2.2.2 op he
        subst he2
        intro hcc
        omega
      · exact ih h.2.2.2.2.2.2.2.2 op he htag pos hp1 hp2 op2 he2 htag2

theorem opsB_equal_sum {la lb : Nat} :
    ∀ {ops : List Op} {i j : Nat}, OpsB la lb i j ops →
    equalMatched ops ≤ la - i := by
  intro ops
  induction ops with
  | nil => intro i j _; simp [equalMatched]
  | cons op0 rest ih =>
    intro i j h
    rw [OpsB_cons] at h
    have htail := ih h.2.2.2.2.2.2.2.2
    have h1 : op0.i1 = i := h.1
    have h2 : op0.i1 ≤ op0.i2 := h.2.2.1
    have h3 : op0.i2 ≤ la := h.2.2.2.2.1
    show (if op0.tag = Tag.equal then op0.i2 - op0.i1 else 0) +
      equalMatched rest ≤ la - i
    split <;> omega

/-!
C7: the score formula and its range.
-/

theorem processOps_matched (rt ht : List Str) : ∀ (ops : List Op) (m : Nat)
    (mm : List Mismatch) (marks : List Str),
    (processOps rt ht ops (m, mm, marks)).1 = m + equalMatched ops := by
  intro ops
  induction ops with
  | nil => intro m mm marks; simp [processOps, equalMatched]
  | cons op rest ih =>
    intro m mm marks
    rw [processOps_cons]
    cases htag : op.tag <;> simp [htag, ih, equalMatched] <;> omega

theorem equalMatched_empty_ref (ht : List Str) :
    equalMatched (align_words [] ht) = 0 := by
  show equalMatched (opcodesLoop 0 0 [(0, ht.length, 0)]) = 0
  rw [opcodesLoop_cons]
  by_cases h : (0:Nat) < ht.length
  · rw [if_neg (fun hh => absurd hh.1 (by omega)), if_neg (by omega),
      if_pos h, if_neg (by omega)]
    simp [equalMatched, opcodesLoop]
  · rw [if_neg (fun hh => absurd hh.1 (by omega)), if_neg (by omega),
      if_neg h, if_neg (by omega)]
    simp [equalMatched, opcodesLoop]

/-- C7: the returned score always lies in `[0, 100]`, and equals
`100 × (reference tokens covered by equal spans) / max(1, reference token
count)` (as an exact rational). -/
theorem claim_C7_score_range (ref hyp : Str) :
    0 ≤ (score_and_mismatches ref hyp).1 ∧
    (score_and_mismatches ref hyp).1 ≤ 100 ∧
    (score_and_mismatches ref hyp).1 =
      100 * (equalMatched (align_words (tokenize ref) (tokenize hyp)) : ℚ) /
        ((max 1 (tokenize ref).length : ℕ) : ℚ) := by
  obtain ⟨rt, hrt⟩ : ∃ x, tokenize ref = x := ⟨_, rfl⟩
  obtain ⟨ht2, hht⟩ : ∃ x, tokenize hyp = x := ⟨_, rfl⟩
  rw [score_and_mismatches_def, hrt, hht]
  by_cases h : rt = []
  · rw [if_pos h, outTuple_score, h]
    have he : equalMatched (align_words [] ht2) = 0 := equalMatched_empty_ref _
    rw [he]
    norm_num
  · rw [if_neg h, outTuple_score, processOps_matched]
    have hle : equalMatched (align_words rt ht2) ≤ rt.length := by
      have h2 := opsB_equal_sum (align_words_OpsB rt ht2)
      omega
    obtain ⟨em, hem⟩ : ∃ x, equalMatched (align_words rt ht2) = x := ⟨_, rfl⟩
    obtain ⟨L, hL⟩ : ∃ x, rt.length = x := ⟨_, rfl⟩
    rw [hem, hL]
    rw [hem, hL] at hle
    have hd0 : (1:ℕ) ≤ max 1 L := by omega
    have hd : (0:ℚ) < ((max 1 L : ℕ) : ℚ) := by
      exact_mod_cast Nat.lt_of_lt_of_le Nat.zero_lt_one hd0
    rw [Rat.mkRat_eq_div]
    refine ⟨?_, ?_, ?_⟩
    · positivity
    · rw [div_le_iff₀ hd]
      have hc : ((0 + em : ℕ) : ℚ) ≤ ((max 1 L : ℕ) : ℚ) := by
        exact_mod_cast (by omega : 0 + em ≤ max 1 L)
      push_cast at hc ⊢
      nlinarith
    · push_cast
      ring

/-!
C6: the reference marks.
-/

theorem foldl_set_length (x : Str) : ∀ (n i1 : Nat) (marks : List Str),
    ((List.range' i1 n).foldl (fun m k => m.set k x) marks).length =
      marks.length := by
  intro n
  induction n with
  | zero => intro i1 marks; rfl
  | succ n ih =>
    intro i1 marks
    rw [List.range'_succ, List.foldl_cons, ih]
    exact List.length_set marks i1 x

theorem foldl_set_get? (x : Str) : ∀ (n i1 pos : Nat) (marks : List Str),
    ((List.range' i1 n).foldl (fun m k => m.set k x) marks).get? pos =
      if i1 ≤ pos ∧ pos < i1 + n ∧ pos < marks.length then some x
      else marks.get? pos := by
  intro n
  induction n with
  | zero =>
    intro i1 pos marks
    rw [if_neg (by omega)]
    rfl
  | succ n ih =>
    intro i1 pos marks
    rw [List.range'_succ, List.foldl_cons, ih, List.length_set]
    by_cases h1 : i1 + 1 ≤ pos ∧ pos < i1 + 1 + n ∧ pos < marks.length
    · rw [if_pos h1, if_pos (by omega)]
    · rw [if_neg h1]
      by_cases h2 : pos = i1 ∧ pos < marks.length
      · obtain ⟨he, hl⟩ := h2
        rw [if_pos (by omega), he]
        exact List.get?_set_eq_of_lt x (he ▸ hl)
      · rw [if_neg (by omega)]
        by_cases h3 : pos = i1
        · have hge : marks.length ≤ pos := by omega
          rw [List.get?_len_le (by rw [List.length_set]; exact hge),
            List.get?_len_le hge]
        · exact List.get?_set_ne x marks (fun hc => h3 hc.symm)

theorem markBad_length (marks : List Str) (i1 i2 : Nat) :
    (markBad marks i1 i2).length = marks.length :=
  foldl_set_length _ _ _ _

theorem markBad_get? (marks : List Str) (i1 i2 pos : Nat) :
    (markBad marks i1 i2).get? pos =
      if i1 ≤ pos ∧ pos < i1 + (i2 - i1) ∧ pos < marks.length then
        some "bad".data
      else marks.get? pos :=
  foldl_set_get? _ _ _ _ _

theorem processOps_marks_len (rt ht : List Str) : ∀ (ops : List Op) (m : Nat)
    (mm : List Mismatch) (marks : List Str),
    (processOps rt ht ops (m, mm, marks)).2.2.length = marks.length := by
  intro ops
  induction ops with
  | nil => intro m mm marks; rfl
  | cons op rest ih =>
    intro m mm marks
    rw [processOps_cons]
    cases htag : op.tag <;> simp only [ih, markBad_length]

theorem processOps_marks_stable (rt ht : List Str) : ∀ (ops : List Op)
    (m : Nat) (mm : List Mismatch) (marks : List Str) (pos : Nat),
    marks.get? pos = some "bad".data →
    (processOps rt ht ops (m, mm, marks)).2.2.get? pos = some "bad".data := by
  intro ops
  induction ops with
  | nil => intro m mm marks pos h; exact h
  | cons op rest ih =>
    intro m mm marks pos h
    rw [processOps_cons]
    cases htag : op.tag
    · exact ih _ _ _ _ h
    · refine ih _ _ _ _ ?_
      rw [markBad_get?]
      split
      · rfl
      · exact h
    · refine ih _ _ _ _ ?_
      rw [markBad_get?]
      split
      · rfl
      · exact h
    · exact ih _ _ _ _ h

theorem processOps_marks_covered (rt ht : List Str) : ∀ (ops : List Op)
    (m : Nat) (mm : List Mismatch) (marks : List Str),
    ∀ op ∈ ops, (op.tag = Tag.replace ∨ op.tag = Tag.delete) →
    ∀ pos, op.i1 ≤ pos → pos < op.i2 → pos < marks.length →
    (processOps rt ht ops (m, mm, marks)).2.2.get? pos = some "bad".data := by
  intro ops
  induction ops with
  | nil => intro m mm marks op hop; simp at hop
  | cons op0 rest ih =>
    intro m mm marks op hop htag pos h1 h2 h3
    rcases List.mem_cons.mp hop with he | he
    · subst he
      rw [processOps_cons]
      rcases htag with ht0 | ht0 <;> rw [ht0] <;>
        refine processOps_marks_stable rt ht rest _ _ _ pos ?_ <;>
        rw [markBad_get?] <;> rw [if_pos (by omega)]
    · rw [processOps_cons]
      cases htag0 : op0.tag
      · exact ih _ _ _ op he htag pos h1 h2 h3
      · exact ih _ _ _ op he htag pos h1 h2 (by rw [markBad_length]; exact h3)
      · exact ih _ _ _ op he htag pos h1 h2 (by rw [markBad_length]; exact h3)
      · exact ih _ _ _ op he htag pos h1 h2 h3

theorem processOps_marks_untouched (rt ht : List Str) : ∀ (ops : List Op)
    (m : Nat) (mm : List Mismatch) (marks : List Str) (pos : Nat),
    (∀ op ∈ ops, (op.tag = Tag.replace ∨ op.tag = Tag.delete) →
      ¬(op.i1 ≤ pos ∧ pos < op.i2)) →
    (processOps rt ht ops (m, mm, marks)).2.2.get? pos = marks.get? pos := by
  intro ops
  induction ops with
  | nil => intro m mm marks pos _; rfl
  | cons op0 rest ih =>
    intro m mm marks pos h
    rw [processOps_cons]
    have htail : ∀ op ∈ rest, (op.tag = Tag.replace ∨ op.tag = Tag.delete) →
        ¬(op.i1 ≤ pos ∧ pos < op.i2) :=
      fun op hop => h op (List.mem_cons_of_mem op0 hop)
    cases htag0 : op0.tag
    · exact ih _ _ _ _ htail
    · rw [ih _ _ _ _ htail, markBad_get?, if_neg]
      have := h op0 (List.mem_cons_self op0 rest) (Or.inl htag0)
      omega
    · rw [ih _ _ _ _ htail, markBad_get?, if_neg]
      have := h op0 (List.mem_cons_self op0 rest) (Or.inr htag0)
      omega
    · exact ih _ _ _ _ htail

/-- C6: the returned marks sequence has exactly one mark per reference token;
inside the non-degenerate path every reference position covered by a
`replace` or `delete` span is marked `"bad"`, every position covered by an
`equal` span is marked `"ok"`, and `insert` spans cover no reference position
(`i1 = i2`). -/
theorem claim_C6_reference_marks (ref hyp : Str) :
    (score_and_mismatches ref hyp).2.2.2.2.length = (tokenize ref).length ∧
    (tokenize ref ≠ [] →
      ∀ op ∈ align_words (tokenize ref) (tokenize hyp),
        ((op.tag = Tag.replace ∨ op.tag = Tag.delete) →
          ∀ pos, op.i1 ≤ pos → pos < op.i2 →
            (score_and_mismatches ref hyp).2.2.2.2.get? pos =
              some "bad".data) ∧
        (op.tag = Tag.equal →
          ∀ pos, op.i1 ≤ pos → pos < op.i2 →
            (score_and_mismatches ref hyp).2.2.2.2.get? pos =
              some "ok".data) ∧
        (op.tag = Tag.insert → op.i1 = op.i2)) := by
  obtain ⟨rt, hrt⟩ : ∃ x, tokenize ref = x := ⟨_, rfl⟩
  obtain ⟨ht2, hht⟩ : ∃ x, tokenize hyp = x := ⟨_, rfl⟩
  rw [score_and_mismatches_def, hrt, hht]
  by_cases h : rt = []
  · rw [if_pos h, outTuple_marks]
    subst h
    exact ⟨rfl, fun hne => absurd rfl hne⟩
  · rw [if_neg h, outTuple_marks]
    have hOps := align_words_OpsB rt ht2
    refine ⟨?_, fun _ => ?_⟩
    · rw [processOps_marks_len, List.length_replicate]
    · intro op hop
      have hfacts := opsB_facts hOps op hop
      refine ⟨?_, ?_, hfacts.2.2.2.2.1⟩
      · intro htag pos h1 h2
        exact processOps_marks_covered rt ht2 _ _ _ _ op hop htag pos h1 h2
          (by rw [List.length_replicate]; omega)
      · intro htag pos h1 h2
        have hun := processOps_marks_untouched rt ht2
          (align_words rt ht2) 0 []
          (List.replicate rt.length "ok".data) pos
          (fun op2 hop2 htag2 =>
            opsB_equal_not_covered hOps op hop htag pos h1 h2 op2 hop2 htag2)
        rw [hun]
        have hlen : pos < rt.length := by omega
        simp [List.get?_eq_getElem?, List.getElem?_replicate, hlen]

theorem claim_C6_witness :
    (score_and_mismatches "the quick brown fox".data
      "the quick brown dog".data).2.2.2.2.get? 3 = some "bad".data :=
  ((claim_C6_reference_marks "the quick brown fox".data
      "the quick brown dog".data).2 (by decide)
    ⟨Tag.replace, 3, 4, 3, 4⟩ (by decide)).1 (Or.inl rfl) 3 (by decide)
    (by decide)

/-!
C3, amended: digit runs delimited by word boundaries are substituted.
-/

theorem goSubF_cons (f : Nat) (prev : Option Char) (c : Char) (t : Str) :
    goSubF (f + 1) prev (c :: t) =
      match numMatch prev (c :: t) with
      | some (d, r) => numTok ++ goSubF f (some (d.getLastD ' ')) r
      | none => c :: goSubF f (some c) t := rfl

theorem numMatch_eq (prev : Option Char) (c : Char) (t : Str) :
    numMatch prev (c :: t) =
      if !boundaryBefore prev then none
      else if !isDigitCh c then none
      else if sepDigits ((c :: t).dropWhile isDigitCh) then
        (if boundaryAfter
            (((c :: t).dropWhile isDigitCh).tail.dropWhile isDigitCh) then
          some ((c :: t).takeWhile isDigitCh ++
            ((c :: t).dropWhile isDigitCh).headD ' ' ::
              ((c :: t).dropWhile isDigitCh).tail.takeWhile isDigitCh,
            ((c :: t).dropWhile isDigitCh).tail.dropWhile isDigitCh)
        else some ((c :: t).takeWhile isDigitCh, (c :: t).dropWhile isDigitCh))
      else if boundaryAfter ((c :: t).dropWhile isDigitCh) then
        some ((c :: t).takeWhile isDigitCh, (c :: t).dropWhile isDigitCh)
      else none := rfl

theorem digit_word {c : Char} (h : isDigitCh c = true) : isWordCh c = true := by
  simp only [isWordCh, Char.isAlphanum, Bool.or_eq_true]
  exact Or.inl (Or.inr h)

theorem tw_stop {p : Char → Bool} {v : List Char}
    (h : ∀ c, v.head? = some c → p c = false) :
    v.takeWhile p = [] ∧ v.dropWhile p = v := by
  cases v with
  | nil => exact ⟨rfl, rfl⟩
  | cons c t =>
    have hc := h c rfl
    simp [List.takeWhile_cons, List.dropWhile_cons, hc]

theorem boundaryAfter_head {v : Str} (h : boundaryAfter v = true) :
    ∀ c, v.head? = some c → isWordCh c = false := by
  intro c hc
  cases v with
  | nil => simp at hc
  | cons c0 t =>
    have he : c0 = c := by simpa using hc
    subst he
    simpa [boundaryAfter] using h

theorem numMatch_split {prev : Option Char} {s d r : Str}
    (h : numMatch prev s = some (d, r)) : d ++ r = s ∧ d ≠ [] := by
  cases s with
  | nil =>
    unfold numMatch at h
    split at h
    · exact absurd h (by simp)
    · exact absurd h (by simp)
  | cons c t =>
    rw [numMatch_eq] at h
    split at h
    · exact absurd h (by simp)
    · split at h
      · exact absurd h (by simp)
      · next hdig =>
        have hcd : isDigitCh c = true := by
          simpa using hdig
        have hDR : (c :: t).takeWhile isDigitCh ++
            (c :: t).dropWhile isDigitCh = c :: t :=
          List.takeWhile_append_dropWhile isDigitCh (c :: t)
        have hDne : (c :: t).takeWhile isDigitCh ≠ [] := by
          simp [List.takeWhile_cons, hcd]
        split at h
        · next hsep =>
          obtain ⟨s0, r2, hR⟩ : ∃ s0 r2,
              (c :: t).dropWhile isDigitCh = s0 :: r2 := by
            cases hRR : (c :: t).dropWhile isDigitCh with
            | nil => rw [hRR] at hsep; simp [sepDigits] at hsep
            | cons a b => exact ⟨a, b, rfl⟩
          have hd2r3 : r2.takeWhile isDigitCh ++ r2.dropWhile isDigitCh = r2 :=
            List.takeWhile_append_dropWhile isDigitCh r2
          split at h
          · injection h with h2
            injection h2 with he1 he2
            subst he1; subst he2
            refine ⟨?_, ?_⟩
            · rw [hR]
              simp only [List.headD_cons, List.tail_cons, List.append_assoc,
                List.cons_append, hd2r3]
              rw [← hR]
              exact hDR
            · intro hc
              exact hDne (List.append_eq_nil.mp hc).1
          · injection h with h2
            injection h2 with he1 he2
            subst he1; subst he2
            exact ⟨hDR, hDne⟩
        · split at h
          · injection h with h2
            injection h2 with he1 he2
            subst he1; subst he2
            exact ⟨hDR, hDne⟩
          · exact absurd h (by simp)

theorem junctionPrev_nil (prev : Option Char) : junctionPrev prev [] = prev := rfl

theorem junctionPrev_cons (prev : Option Char) (c : Char) (u : Str) :
    junctionPrev prev (c :: u) = junctionPrev (some c) u := by
  cases u with
  | nil => simp [junctionPrev]
  | cons d u =>
    simp only [junctionPrev, List.getLast?_cons_cons]
    cases hx : (d :: u).getLast? with
    | none => simp at hx
    | some x => rfl

theorem numMatch_none_notdigit {prev : Option Char} {c : Char} {t : Str}
    (h : isDigitCh c = false) : numMatch prev (c :: t) = none := by
  rw [numMatch_eq]
  simp [h]

theorem goSubF_skip (u : Str) : ∀ (f : Nat) (prev : Option Char) (rest : Str),
    (∀ c ∈ u, isDigitCh c = false) →
    goSubF (u.length + f) prev (u ++ rest) =
      u ++ goSubF f (junctionPrev prev u) rest := by
  induction u with
  | nil =>
    intro f prev rest _
    simp only [List.length_nil, Nat.zero_add, List.nil_append, junctionPrev_nil]
  | cons c u ih =>
    intro f prev rest hu
    have hc : isDigitCh c = false := hu c (List.mem_cons_self c u)
    have hstep : goSubF ((c :: u).length + f) prev ((c :: u) ++ rest) =
        c :: goSubF (u.length + f) (some c) (u ++ rest) := by
      rw [List.length_cons, Nat.add_right_comm, List.cons_append, goSubF_cons,
        numMatch_none_notdigit hc]
    rw [hstep, ih f (some c) rest (fun x hx => hu x (List.mem_cons_of_mem c hx)),
      junctionPrev_cons]
    rfl

theorem goSubF_fuel : ∀ (f g : Nat) (prev : Option Char) (s : Str),
    s.length ≤ f → s.length ≤ g → goSubF f prev s = goSubF g prev s := by
  intro f
  induction f with
  | zero =>
    intro g prev s hf _
    have hs : s = [] := List.length_eq_zero.mp (Nat.le_zero.mp hf)
    subst hs
    cases g with
    | zero => rfl
    | succ g => rfl
  | succ f ih =>
    intro g prev s hf hg
    cases s with
    | nil =>
      cases g with
      | zero => rfl
      | succ g => rfl
    | cons c t =>
      obtain ⟨g, rfl⟩ : ∃ k, g = k + 1 := by
        refine ⟨g - 1, ?_⟩
        have := hg
        simp only [List.length_cons] at this
        omega
      have hf2 : t.length ≤ f := by
        have := hf
        simp only [List.length_cons] at this
        omega
      have hg2 : t.length ≤ g := by
        have := hg
        simp only [List.length_cons] at this
        omega
      rw [goSubF_cons, goSubF_cons]
      cases hm : numMatch prev (c :: t) with
      | none =>
        show c :: goSubF f (some c) t = c :: goSubF g (some c) t
        rw [ih g (some c) t hf2 hg2]
      | some p =>
        obtain ⟨d, r⟩ := p
        show numTok ++ goSubF f (some (d.getLastD ' ')) r =
          numTok ++ goSubF g (some (d.getLastD ' ')) r
        obtain ⟨hdr, hdne⟩ := numMatch_split hm
        have hr : r.length ≤ t.length := by
          have hlen := congrArg List.length hdr
          simp only [List.length_append, List.length_cons] at hlen
          have hd1 : 0 < d.length := List.length_pos.mpr hdne
          omega
        rw [ih g (some (d.getLastD ' ')) r (le_trans hr hf2) (le_trans hr hg2)]

theorem sep_not_digit {s : Char} (h : isSepCh s = true) : isDigitCh s = false := by
  simp only [isSepCh, Bool.or_eq_true, beq_iff_eq] at h
  rcases h with h | h <;> subst h <;> decide

theorem tw_all_append {p : Char → Bool} {d v : List Char}
    (hall : ∀ c ∈ d, p c = true) (hv : ∀ c, v.head? = some c → p c = false) :
    (d ++ v).takeWhile p = d ∧ (d ++ v).dropWhile p = v := by
  induction d with
  | nil => simpa using tw_stop hv
  | cons c t ih =>
    have hc := hall c (List.mem_cons_self c t)
    have iht := ih (fun x hx => hall x (List.mem_cons_of_mem c hx))
    simp [List.cons_append, List.takeWhile_cons, List.dropWhile_cons, hc,
      iht.1, iht.2]

theorem head_not_digit {v : Str} (h : boundaryAfter v = true) :
    ∀ c, v.head? = some c → isDigitCh c = false := by
  intro c hc
  have hw := boundaryAfter_head h c hc
  cases hxd : isDigitCh c with
  | false => rfl
  | true => exact absurd (digit_word hxd) (by simp [hw])

theorem numMatch_digits_only {prev : Option Char} {d v : Str}
    (hb : boundaryBefore prev = true) (hdne : d ≠ [])
    (hall : ∀ c ∈ d, isDigitCh c = true)
    (hv1 : boundaryAfter v = true) (hv2 : sepDigits v = false) :
    numMatch prev (d ++ v) = some (d, v) := by
  obtain ⟨c, t, rfl⟩ : ∃ c t, d = c :: t := by
    cases d with
    | nil => exact absurd rfl hdne
    | cons c t => exact ⟨c, t, rfl⟩
  have htw := tw_all_append hall (head_not_digit hv1)
  rw [List.cons_append, numMatch_eq, ← List.cons_append]
  simp only [hb, hall c (List.mem_cons_self c t), htw.1, htw.2, hv2, hv1,
    Bool.not_true, Bool.false_eq_true, if_false, if_true, ite_false, ite_true]

theorem numMatch_sep {prev : Option Char} {d1 d2 v : Str} {s : Char}
    (hb : boundaryBefore prev = true)
    (hd1 : d1 ≠ []) (ha1 : ∀ c ∈ d1, isDigitCh c = true)
    (hd2 : d2 ≠ []) (ha2 : ∀ c ∈ d2, isDigitCh c = true)
    (hs : isSepCh s = true)
    (hv1 : boundaryAfter v = true) :
    numMatch prev (d1 ++ s :: (d2 ++ v)) = some (d1 ++ s :: d2, v) := by
  obtain ⟨c, t, rfl⟩ : ∃ c t, d1 = c :: t := by
    cases d1 with
    | nil => exact absurd rfl hd1
    | cons c t => exact ⟨c, t, rfl⟩
  obtain ⟨c2, t2, rfl⟩ : ∃ c2 t2, d2 = c2 :: t2 := by
    cases d2 with
    | nil => exact absurd rfl hd2
    | cons c2 t2 => exact ⟨c2, t2, rfl⟩
  have htw1 := tw_all_append (v := s :: (c2 :: t2 ++ v)) ha1
    (by intro x hx; injection hx with hx; subst hx; exact sep_not_digit hs)
  have htw2 := tw_all_append (v := v) ha2 (head_not_digit hv1)
  have hsep : sepDigits (s :: (c2 :: t2 ++ v)) = true := by
    simp only [List.cons_append, sepDigits, Bool.and_eq_true]
    exact ⟨hs, ha2 c2 (List.mem_cons_self c2 t2)⟩
  rw [List.cons_append, numMatch_eq, ← List.cons_append]
  simp only [hb, ha1 c (List.mem_cons_self c t), htw1.1, htw1.2, hsep,
    List.headD_cons, List.tail_cons, htw2.1, htw2.2, hv1,
    Bool.not_true, Bool.false_eq_true, if_false, if_true, ite_false, ite_true]

theorem numMatch_numpat {prev : Option Char} {d v : Str}
    (hb : boundaryBefore prev = true) (hd : NumPat d)
    (hv1 : boundaryAfter v = true) (hv2 : sepDigits v = false) :
    numMatch prev (d ++ v) = some (d, v) := by
  rcases hd with ⟨hdne, hall⟩ | ⟨d1, s, d2, rfl, h1, h2, ha1, ha2, hs⟩
  · exact numMatch_digits_only hb hdne hall hv1 hv2
  · rw [List.append_assoc, List.cons_append]
    exact numMatch_sep hb h1 ha1 h2 ha2 hs hv1

theorem goSubF_match {f : Nat} {prev : Option Char} {s d r : Str}
    (h : numMatch prev s = some (d, r)) :
    goSubF (f + 1) prev s = numTok ++ goSubF f (some (d.getLastD ' ')) r := by
  cases s with
  | nil =>
    unfold numMatch at h
    split at h
    · exact absurd h (by simp)
    · exact absurd h (by simp)
  | cons c t => rw [goSubF_cons, h]

/-- C3 (amended): the spec says every maximal digit run is replaced by the
placeholder, but the regex `\b\d+(?:[.,]\d+)?\b` only replaces runs delimited
by word boundaries (see `claim_C3_counterexample`: in "x5" nothing is
replaced).  Amended statement: whenever a digit run `d` (digits, optionally
with one interior `.`/`,` separator) is preceded by text `u` that contains no
digit and ends in a non-word character (or is empty), and is followed by text
`v` that starts with a non-word character (or is empty) and does not extend
the number (no separator-digit continuation), the substitution pass of
`normalize_text_for_scoring` rewrites `u ++ d ++ v` to `u ++ "<num>" ++` the
substitution of `v`. -/
theorem claim_C3_amended (u d v : Str)
    (hu : ∀ c ∈ u, isDigitCh c = false)
    (hb : boundaryBefore (junctionPrev none u) = true)
    (hd : NumPat d)
    (hv1 : boundaryAfter v = true) (hv2 : sepDigits v = false) :
    subNum (u ++ d ++ v) =
      u ++ numTok ++ goSubF v.length (some (d.getLastD ' ')) v := by
  have hdne : d ≠ [] := by
    rcases hd with ⟨h, _⟩ | ⟨d1, s, d2, rfl, h1, _, _, _, _⟩
    · exact h
    · simp
  have hm : numMatch (junctionPrev none u) (d ++ v) = some (d, v) :=
    numMatch_numpat hb hd hv1 hv2
  obtain ⟨k, hk⟩ : ∃ k, d.length + v.length = k + 1 := by
    refine ⟨d.length + v.length - 1, ?_⟩
    have hd1 : 0 < d.length := List.length_pos.mpr hdne
    omega
  have hkv : v.length ≤ k := by
    have hd1 : 0 < d.length := List.length_pos.mpr hdne
    omega
  unfold subNum
  rw [List.append_assoc]
  have hlen : (u ++ (d ++ v)).length = u.length + (d.length + v.length) := by
    simp
  rw [hlen, goSubF_skip u (d.length + v.length) none (d ++ v) hu, hk,
    goSubF_match hm, goSubF_fuel k v.length (some (d.getLastD ' ')) v hkv
      (le_refl _), ← List.append_assoc]

theorem claim_C3_witness :
    subNum ("x ".data ++ "20".data ++ " y".data) =
      "x ".data ++ numTok ++
        goSubF (" y".data.length) (some (("20".data).getLastD ' ')) " y".data :=
  claim_C3_amended "x ".data "20".data " y".data (by decide) (by decide)
    (Or.inl ⟨by decide, by decide⟩) (by decide) (by decide)

/-!
C8: idempotence of the tokenizer on its own space-joined output.
-/

theorem findTokensF_succ (f : Nat) (c : Char) (t : Str) :
    findTokensF (f + 1) (c :: t) =
      if isTokCls c then
        (c :: t.takeWhile isTokCls) :: findTokensF f (t.dropWhile isTokCls)
      else if leadsWith numTok (c :: t) then
        numTok :: findTokensF f ((c :: t).drop numTok.length)
      else findTokensF f t := rfl

theorem findTokensF_atomic : ∀ (f : Nat) (s t : Str),
    t ∈ findTokensF f s → AtomicTok t := by
  intro f
  induction f with
  | zero => intro s t ht; simp [findTokensF] at ht
  | succ f ih =>
    intro s t ht
    cases s with
    | nil => simp [findTokensF] at ht
    | cons c u =>
      rw [findTokensF_succ] at ht
      split at ht
      · next hc =>
        rcases List.mem_cons.mp ht with h | h
        · subst h
          refine Or.inr ⟨by simp, ?_⟩
          intro x hx
          rcases List.mem_cons.mp hx with rfl | hx
          · exact hc
          · exact List.mem_takeWhile_imp hx
        · exact ih _ _ h
      · split at ht
        · rcases List.mem_cons.mp ht with h | h
          · subst h; exact Or.inl rfl
          · exact ih _ _ h
        · exact ih _ _ ht

theorem leadsWith_append (p x : Str) : leadsWith p (p ++ x) = true := by
  induction p with
  | nil => rfl
  | cons c t ih => simp [leadsWith, ih]

theorem findTokensF_tok (f : Nat) (t rest : Str) (hA : AtomicTok t)
    (hr : rest = [] ∨ ∃ w, rest = ' ' :: w) :
    findTokensF (f + 1) (t ++ rest) = t :: findTokensF f rest := by
  have hrest : ∀ c, rest.head? = some c → isTokCls c = false := by
    intro c hc
    rcases hr with rfl | ⟨w, rfl⟩
    · simp at hc
    · have h2 : c = ' ' := by simpa using hc.symm
      subst h2; decide
  rcases hA with rfl | ⟨hne, hall⟩
  · have hshape : numTok ++ rest = '<' :: ("num>".data ++ rest) := rfl
    rw [hshape, findTokensF_succ, if_neg (by decide)]
    have hl : leadsWith numTok ('<' :: ("num>".data ++ rest)) = true := by
      rw [← hshape]; exact leadsWith_append numTok rest
    rw [if_pos hl]
    have hdrop : ('<' :: ("num>".data ++ rest)).drop numTok.length = rest := by
      rw [← hshape]; exact List.drop_left numTok rest
    rw [hdrop]
  · obtain ⟨c, u, rfl⟩ : ∃ c u, t = c :: u := by
      cases t with
      | nil => exact absurd rfl hne
      | cons c u => exact ⟨c, u, rfl⟩
    have hu : ∀ x ∈ u, isTokCls x = true :=
      fun x hx => hall x (List.mem_cons_of_mem c hx)
    have htw := tw_all_append hu hrest
    rw [List.cons_append, findTokensF_succ,
      if_pos (hall c (List.mem_cons_self c u)), htw.1, htw.2]

theorem findTokensF_sep (f : Nat) (w : Str) :
    findTokensF (f + 1) (' ' :: w) = findTokensF f w := by
  rw [findTokensF_succ, if_neg (by decide)]
  have hl : leadsWith numTok (' ' :: w) = false := rfl
  rw [hl]
  simp

theorem findTokens_join : ∀ (T : List Str) (f : Nat),
    (∀ t ∈ T, AtomicTok t) → 2 * T.length ≤ f + 1 →
    findTokensF f (joinTokens T) = T := by
  intro T
  induction T with
  | nil =>
    intro f _ _
    cases f with
    | zero => rfl
    | succ f => rfl
  | cons t T ih =>
    intro f hA hf
    cases T with
    | nil =>
      obtain ⟨f, rfl⟩ : ∃ k, f = k + 1 := ⟨f - 1, by
        simp only [List.length_cons, List.length_nil] at hf; omega⟩
      rw [show joinTokens [t] = t ++ [] from (List.append_nil t).symm,
        findTokensF_tok f t [] (hA t (by simp)) (Or.inl rfl)]
      cases f with
      | zero => rfl
      | succ f => rfl
    | cons t2 T2 =>
      have hlen := hf
      simp only [List.length_cons] at hlen
      obtain ⟨f, rfl⟩ : ∃ k, f = k + 2 := ⟨f - 2, by omega⟩
      rw [show joinTokens (t :: t2 :: T2) = t ++ (' ' :: joinTokens (t2 :: T2))
          from rfl,
        findTokensF_tok (f + 1) t _ (hA t (by simp)) (Or.inr ⟨_, rfl⟩),
        findTokensF_sep,
        ih f (fun x hx => hA x (List.mem_cons_of_mem t hx))
          (by simp only [List.length_cons]; omega)]

theorem pySplitF_succ (f : Nat) (s : Str) :
    pySplitF (f + 1) s =
      match s.dropWhile isPySpace with
      | [] => []
      | c :: t =>
        (c :: t.takeWhile (fun x => !isPySpace x)) ::
          pySplitF f (t.dropWhile (fun x => !isPySpace x)) := rfl

theorem pySplitF_tok (f : Nat) (t rest : Str) (hne : t ≠ [])
    (hns : ∀ c ∈ t, isPySpace c = false)
    (hr : rest = [] ∨ ∃ w, rest = ' ' :: w) :
    pySplitF (f + 1) (t ++ rest) = t :: pySplitF f rest := by
  obtain ⟨c, u, rfl⟩ : ∃ c u, t = c :: u := by
    cases t with
    | nil => exact absurd rfl hne
    | cons c u => exact ⟨c, u, rfl⟩
  have hu : ∀ x ∈ u, (!isPySpace x) = true := by
    intro x hx
    simp [hns x (List.mem_cons_of_mem c hx)]
  have hrest : ∀ x, rest.head? = some x → (!isPySpace x) = false := by
    intro x hx
    rcases hr with rfl | ⟨w, rfl⟩
    · simp at hx
    · have h2 : x = ' ' := by simpa using hx.symm
      subst h2; decide
  have htw := tw_all_append hu hrest
  rw [List.cons_append, pySplitF_succ,
    show (c :: (u ++ rest)).dropWhile isPySpace = c :: (u ++ rest) from by
      simp [List.dropWhile_cons, hns c (List.mem_cons_self c u)]]
  show (c :: (u ++ rest).takeWhile (fun x => !isPySpace x)) ::
      pySplitF f ((u ++ rest).dropWhile (fun x => !isPySpace x)) =
    (c :: u) :: pySplitF f rest
  rw [htw.1, htw.2]

theorem pySplitF_sep (f : Nat) (s : Str) :
    pySplitF (f + 1) (' ' :: s) = pySplitF (f + 1) s := by
  rw [pySplitF_succ, pySplitF_succ,
    show (' ' :: s).dropWhile isPySpace = s.dropWhile isPySpace from by
      simp [List.dropWhile_cons, isPySpace]]

theorem pySplit_join : ∀ (T : List Str) (f : Nat),
    (∀ t ∈ T, t ≠ [] ∧ ∀ c ∈ t, isPySpace c = false) → T.length ≤ f →
    pySplitF f (joinTokens T) = T := by
  intro T
  induction T with
  | nil =>
    intro f _ _
    cases f with
    | zero => rfl
    | succ f => rfl
  | cons t T ih =>
    intro f hA hf
    have ht := hA t (by simp)
    cases T with
    | nil =>
      obtain ⟨f, rfl⟩ : ∃ k, f = k + 1 := ⟨f - 1, by
        simp only [List.length_cons, List.length_nil] at hf; omega⟩
      rw [show joinTokens [t] = t ++ [] from (List.append_nil t).symm,
        pySplitF_tok f t [] ht.1 ht.2 (Or.inl rfl)]
      cases f with
      | zero => rfl
      | succ f => rfl
    | cons t2 T2 =>
      have hlen := hf
      simp only [List.length_cons] at hlen
      obtain ⟨f, rfl⟩ : ∃ k, f = k + 2 := ⟨f - 2, by omega⟩
      rw [show joinTokens (t :: t2 :: T2) = t ++ (' ' :: joinTokens (t2 :: T2))
          from rfl,
        pySplitF_tok (f + 1) t _ ht.1 ht.2 (Or.inr ⟨_, rfl⟩),
        pySplitF_sep,
        ih (f + 1) (fun x hx => hA x (List.mem_cons_of_mem t hx))
          (by simp only [List.length_cons]; omega)]

theorem joinTokens_len : ∀ (T : List Str), (∀ t ∈ T, t ≠ []) →
    T.length ≤ (joinTokens T).length ∧
      2 * T.length ≤ (joinTokens T).length + 1 := by
  intro T
  induction T with
  | nil => intro _; exact ⟨by simp [joinTokens], by simp [joinTokens]⟩
  | cons t T ih =>
    intro h
    have htl : 1 ≤ t.length := List.length_pos.mpr (h t (by simp))
    cases T with
    | nil =>
      rw [show joinTokens [t] = t from rfl]
      simp only [List.length_cons, List.length_nil]
      omega
    | cons t2 T2 =>
      have iht := ih (fun x hx => h x (List.mem_cons_of_mem t hx))
      simp only [List.length_cons] at iht
      rw [show joinTokens (t :: t2 :: T2) = t ++ ' ' :: joinTokens (t2 :: T2)
          from rfl]
      simp only [List.length_append, List.length_cons]
      omega

theorem join_chars : ∀ (T : List Str) (c : Char), c ∈ joinTokens T →
    c = ' ' ∨ ∃ t ∈ T, c ∈ t := by
  intro T
  induction T with
  | nil => intro c hc; simp [joinTokens] at hc
  | cons t T ih =>
    intro c hc
    cases T with
    | nil =>
      rw [show joinTokens [t] = t from rfl] at hc
      exact Or.inr ⟨t, by simp, hc⟩
    | cons t2 T2 =>
      rw [show joinTokens (t :: t2 :: T2) = t ++ ' ' :: joinTokens (t2 :: T2)
          from rfl] at hc
      rcases List.mem_append.mp hc with h | h
      · exact Or.inr ⟨t, by simp, h⟩
      · rcases List.mem_cons.mp h with rfl | h
        · exact Or.inl rfl
        · rcases ih c h with h | ⟨x, hx, hcx⟩
          · exact Or.inl h
          · exact Or.inr ⟨x, List.mem_cons_of_mem t hx, hcx⟩

theorem tokCls_toNat {c : Char} (h : isTokCls c = true) :
    c.toNat = 39 ∨ (97 ≤ c.toNat ∧ c.toNat ≤ 122) := by
  simp only [isTokCls, Bool.or_eq_true, Bool.and_eq_true, decide_eq_true_eq,
    beq_iff_eq] at h
  rcases h with ⟨h1, h2⟩ | rfl
  · exact Or.inr ⟨h1, h2⟩
  · exact Or.inl rfl

theorem tokCls_not_space {c : Char} (h : isTokCls c = true) :
    isPySpace c = false := by
  cases hs : isPySpace c with
  | false => rfl
  | true =>
    exfalso
    simp only [isPySpace, Bool.or_eq_true, beq_iff_eq] at hs
    have hn := tokCls_toNat h
    rcases hs with ((((rfl | rfl) | rfl) | rfl) | rfl) | rfl <;>
      revert hn <;> decide

theorem atomic_lower {t : Str} (hA : AtomicTok t) : ∀ c ∈ t, c.toLower = c := by
  rcases hA with rfl | ⟨_, hall⟩
  · decide
  · intro c hc
    refine toLower_eq_self ?_
    rcases tokCls_toNat (hall c hc) with h | ⟨h1, h2⟩ <;> omega

theorem atomic_nodigit {t : Str} (hA : AtomicTok t) :
    ∀ c ∈ t, isDigitCh c = false := by
  rcases hA with rfl | ⟨_, hall⟩
  · decide
  · intro c hc
    cases hd : isDigitCh c with
    | false => rfl
    | true =>
      exfalso
      have hdn := isDigit_toNat hd
      rcases tokCls_toNat (hall c hc) with h | ⟨h1, h2⟩ <;> omega

theorem atomic_nospace {t : Str} (hA : AtomicTok t) :
    t ≠ [] ∧ ∀ c ∈ t, isPySpace c = false := by
  rcases hA with rfl | ⟨hne, hall⟩
  · exact ⟨by decide, by decide⟩
  · exact ⟨hne, fun c hc => tokCls_not_space (hall c hc)⟩

theorem pyLower_fix : ∀ {s : Str}, (∀ c ∈ s, c.toLower = c) → pyLower s = s := by
  intro s
  induction s with
  | nil => intro _; rfl
  | cons c t ih =>
    intro h
    show c.toLower :: t.map Char.toLower = c :: t
    rw [h c (List.mem_cons_self c t)]
    exact congrArg _ (ih fun x hx => h x (List.mem_cons_of_mem c hx))

theorem subNum_nodigit {s : Str} (h : ∀ c ∈ s, isDigitCh c = false) :
    subNum s = s := by
  unfold subNum
  have hsk := goSubF_skip s 0 none [] h
  simpa [goSubF_nil] using hsk

theorem mapNumWord_idem (t : Str) : mapNumWord (mapNumWord t) = mapNumWord t := by
  have hnt : numTok ∉ NUM_WORDS := by decide
  by_cases h : t ∈ NUM_WORDS <;> simp [mapNumWord, h, hnt]

theorem mapNumWord_atomic {t : Str} (hA : AtomicTok t) :
    AtomicTok (mapNumWord t) := by
  by_cases h : t ∈ NUM_WORDS
  · unfold mapNumWord
    rw [if_pos h]
    exact Or.inl rfl
  · unfold mapNumWord
    rw [if_neg h]
    exact hA

/-- C8: tokenization is idempotent on its own output: tokenizing the
space-joined token sequence produced by a first tokenization yields the same
token sequence again. -/
theorem claim_C8_idempotent (s : Str) :
    tokenize (joinTokens (tokenize s)) = tokenize s := by
  obtain ⟨L, hL⟩ : ∃ L, (findTokens (subNum (pyLower s))).map mapNumWord = L :=
    ⟨_, rfl⟩
  have hX : ∀ t ∈ L, AtomicTok t := by
    intro t ht
    rw [← hL] at ht
    rcases List.mem_map.mp ht with ⟨x, hx, rfl⟩
    exact mapNumWord_atomic (findTokensF_atomic _ _ x hx)
  have hprops : ∀ t ∈ L, t ≠ [] ∧ ∀ c ∈ t, isPySpace c = false :=
    fun t ht => atomic_nospace (hX t ht)
  have hjl := joinTokens_len L (fun t ht => (hprops t ht).1)
  have hsplit : pySplit (joinTokens L) = L := by
    unfold pySplit
    exact pySplit_join L _ hprops hjl.1
  have htok : tokenize s = L := by
    unfold tokenize normalize_text_for_scoring
    rw [hL]
    exact hsplit
  rw [htok]
  have hch : ∀ c ∈ joinTokens L, c.toLower = c ∧ isDigitCh c = false := by
    intro c hc
    rcases join_chars L c hc with rfl | ⟨t, ht, hct⟩
    · exact ⟨by decide, by decide⟩
    · exact ⟨atomic_lower (hX t ht) c hct, atomic_nodigit (hX t ht) c hct⟩
  have h1 : pyLower (joinTokens L) = joinTokens L :=
    pyLower_fix (fun c hc => (hch c hc).1)
  have h2 : subNum (joinTokens L) = joinTokens L :=
    subNum_nodigit (fun c hc => (hch c hc).2)
  have h3 : findTokens (joinTokens L) = L := by
    unfold findTokens
    exact findTokens_join L _ hX hjl.2
  have h4 : L.map mapNumWord = L := by
    rw [← hL, List.map_map]
    exact List.map_congr_left fun x hx => mapNumWord_idem x
  unfold tokenize normalize_text_for_scoring
  rw [h1, h2, h3, h4]
  exact hsplit

/-!
C1, amended: on identical non-empty token sequences the matcher returns the
full-length block `(0, 0, n)`.  The dynamic program may be weakened by
autojunk, but its best block is always diagonal (`bi = bj`), because within a
row the diagonal position is scanned before any later column and rows are
scanned in order; the two extension loops (which ignore junk) then always
stretch a diagonal block to the whole sequence.
-/

theorem lookupJ2_nil (j2 : Nat) : lookupJ2 [] j2 = 0 := rfl

theorem lookupJ2_cons (j k j2 : Nat) (l : List (Nat × Nat)) :
    lookupJ2 ((j, k) :: l) j2 = if j2 = j then k else lookupJ2 l j2 := by
  by_cases h : j2 = j
  · subst h
    simp [lookupJ2, List.find?_cons]
  · simp [lookupJ2, List.find?_cons, Ne.symm h]
    rw [if_neg]
    simp [h]

theorem runLen_le (v : List Str) : ∀ i, runLen v i ≤ i + 1 := by
  intro i
  induction i with
  | zero => unfold runLen; split <;> omega
  | succ i ih => unfold runLen; split <;> omega

theorem runLen_succ_np {v : List Str} {i : Nat} (h : nonpopAt v i = true) :
    runLen v i = (if i = 0 then 0 else runLen v (i - 1)) + 1 := by
  cases i with
  | zero => simp [runLen, h]
  | succ m => simp [runLen, h]

theorem runLen_pop {v : List Str} {i : Nat} (h : nonpopAt v i = false) :
    runLen v i = 0 := by
  cases i <;> simp [runLen, h]

theorem b2j_mem {v : List Str} {x : Str} {j : Nat} (h : j ∈ b2j v x) :
    j < v.length ∧ v.getD j [] = x ∧ isPopular v x = false := by
  unfold b2j at h
  split at h
  · simp at h
  · next hp =>
    simp only [List.mem_filter, List.mem_range] at h
    obtain ⟨hj, hx⟩ := h
    have hx2 : v.get? j = some x := by simpa using hx
    refine ⟨hj, ?_, by simpa using hp⟩
    rw [List.getD_eq_get?, hx2]
    rfl

theorem b2j_self {v : List Str} {i : Nat} (hi : i < v.length)
    (hp : isPopular v (v.getD i []) = false) : i ∈ b2j v (v.getD i []) := by
  unfold b2j
  rw [if_neg (by rw [hp]; simp)]
  simp only [List.mem_filter, List.mem_range]
  refine ⟨hi, ?_⟩
  have hg : v.get? i = some (v.get ⟨i, hi⟩) := List.get?_eq_get hi
  have hgd : v.getD i [] = v.get ⟨i, hi⟩ := by
    rw [List.getD_eq_get?, hg]
    rfl
  rw [hg, hgd]
  simp

theorem b2j_sorted (v : List Str) (x : Str) : (b2j v x).Pairwise (· < ·) := by
  unfold b2j
  split
  · exact List.Pairwise.nil
  · exact (List.pairwise_lt_range _).filter _

theorem b2j_np {v : List Str} {x : Str} {j : Nat} (h : j ∈ b2j v x) :
    nonpopAt v j = true := by
  obtain ⟨hj, hx, hp⟩ := b2j_mem h
  unfold nonpopAt
  rw [hx, hp]
  rfl

theorem extendBack_diag (v : List Str) : ∀ (bi bs : Nat),
    extendBackF v v 0 0 bi (bi, bi, bs) = (0, 0, bi + bs) := by
  intro bi
  induction bi with
  | zero =>
    intro bs
    show (0, 0, bs) = (0, 0, 0 + bs)
    rw [Nat.zero_add]
  | succ bi ih =>
    intro bs
    rw [extendBackF_succ, if_pos (by simp)]
    have h1 : bi + 1 - 1 = bi := rfl
    rw [h1, ih (bs + 1)]
    have h2 : bi + (bs + 1) = bi + 1 + bs := by omega
    rw [h2]

theorem extendFwd_diag (v : List Str) : ∀ (f s : Nat), s + f = v.length →
    extendFwdF v v v.length v.length f (0, 0, s) = (0, 0, v.length) := by
  intro f
  induction f with
  | zero =>
    intro s hs
    show (0, 0, s) = (0, 0, v.length)
    rw [← hs]
    simp
  | succ f ih =>
    intro s hs
    rw [extendFwdF_succ, if_pos (by simp [Nat.zero_add]; omega)]
    exact ih (s + 1) (by omega)

theorem dpInner_diag (v : List Str) (i : Nat) (hi : i < v.length)
    (hnp : isPopular v (v.getD i []) = false)
    (old : List (Nat × Nat))
    (hOa : ∀ j2, lookupJ2 old j2 + 1 ≤ runLen v i)
    (hOb : ∀ j2, lookupJ2 old j2 ≤ runLen v j2)
    (hOd : 0 < i → lookupJ2 old (i - 1) = runLen v (i - 1)) :
    ∀ (js : List Nat) (acc : List (Nat × Nat)) (best : Nat × Nat × Nat),
    (∀ j ∈ js, j ∈ b2j v (v.getD i [])) →
    js.Pairwise (· < ·) →
    DiagBest v.length best →
    (∀ m, m < i → runLen v m ≤ best.2.2) →
    (i ∈ js ∨ runLen v i ≤ best.2.2) →
    (∀ j2, lookupJ2 acc j2 ≤ runLen v i ∧ lookupJ2 acc j2 ≤ runLen v j2) →
    (i ∈ js ∨ lookupJ2 acc i = runLen v i) →
    DiagBest v.length (dpInner 0 v.length i old js acc best).2 ∧
    (∀ m, m < i →
      runLen v m ≤ (dpInner 0 v.length i old js acc best).2.2.2) ∧
    runLen v i ≤ (dpInner 0 v.length i old js acc best).2.2.2 ∧
    (∀ j2, lookupJ2 (dpInner 0 v.length i old js acc best).1 j2 ≤ runLen v i ∧
      lookupJ2 (dpInner 0 v.length i old js acc best).1 j2 ≤ runLen v j2) ∧
    lookupJ2 (dpInner 0 v.length i old js acc best).1 i = runLen v i := by
  have hnpi : nonpopAt v i = true := by
    unfold nonpopAt
    rw [hnp]
    rfl
  have hRi1 : 1 ≤ runLen v i := by rw [runLen_succ_np hnpi]; omega
  intro js
  induction js with
  | nil =>
    intro acc best _ _ hbP hdom hdiag hacc haccd
    refine ⟨hbP, hdom, ?_, hacc, ?_⟩
    · rcases hdiag with h | h
      · simp at h
      · exact h
    · rcases haccd with h | h
      · simp at h
      · exact h
  | cons j js ih =>
    intro acc best hmem hsort hbP hdom hdiag hacc haccd
    have hjb := hmem j (List.mem_cons_self j js)
    obtain ⟨hjn, hjx, _⟩ := b2j_mem hjb
    have hjnp : nonpopAt v j = true := b2j_np hjb
    have hsort2 : js.Pairwise (· < ·) := hsort.of_cons
    have hlt : ∀ a ∈ js, j < a := (List.pairwise_cons.mp hsort).1
    have hmem2 : ∀ a ∈ js, a ∈ b2j v (v.getD i []) :=
      fun a ha => hmem a (List.mem_cons_of_mem j ha)
    rw [dpInner_cons, if_neg (by omega : ¬ j < 0),
      if_neg (by omega : ¬ v.length ≤ j)]
    set k := (if j = 0 then 0 else lookupJ2 old (j - 1)) + 1 with hkdef
    have hka : k ≤ runLen v i := by
      by_cases hj0 : j = 0
      · rw [hkdef, if_pos hj0]
        omega
      · rw [hkdef, if_neg hj0]
        exact hOa (j - 1)
    have hkb : k ≤ runLen v j := by
      by_cases hj0 : j = 0
      · rw [hkdef, if_pos hj0, runLen_succ_np hjnp, hj0]
        simp
      · rw [hkdef, if_neg hj0, runLen_succ_np hjnp, if_neg hj0]
        have := hOb (j - 1)
        omega
    rcases Nat.lt_trichotomy j i with hji | hji | hji
    · -- j strictly before the diagonal: row j is complete, so no improvement
      have hkbest : k ≤ best.2.2 := le_trans hkb (hdom j hji)
      rw [if_neg (by omega : ¬ best.2.2 < k)]
      refine ih ((j, k) :: acc) best hmem2 hsort2 hbP hdom ?_ ?_ ?_
      · rcases hdiag with h | h
        · rcases List.mem_cons.mp h with he | h2
          · omega
          · exact Or.inl h2
        · exact Or.inr h
      · intro j2
        rw [lookupJ2_cons]
        by_cases h2 : j2 = j
        · rw [if_pos h2, h2]
          exact ⟨hka, hkb⟩
        · rw [if_neg h2]
          exact hacc j2
      · rcases haccd with h | h
        · rcases List.mem_cons.mp h with he | h2
          · omega
          · exact Or.inl h2
        · refine Or.inr ?_
          rw [lookupJ2_cons, if_neg (by omega : ¬ i = j)]
          exact h
    · -- the diagonal position itself
      subst hji
      have hk_eq : k = runLen v j := by
        rw [hkdef, runLen_succ_np hnpi]
        by_cases hj0 : j = 0
        · rw [if_pos hj0, if_pos hj0]
        · rw [if_neg hj0, if_neg hj0, hOd (by omega)]
      have hgrow : best.2.2 ≤
          (if best.2.2 < k then (j + 1 - k, j + 1 - k, k) else best).2.2 := by
        split
        · next h => show best.2.2 ≤ k; omega
        · exact le_refl _
      have hge2 : runLen v j ≤
          (if best.2.2 < k then (j + 1 - k, j + 1 - k, k) else best).2.2 := by
        split
        · next h => show runLen v j ≤ k; omega
        · next h => omega
      refine ih ((j, k) :: acc)
        (if best.2.2 < k then (j + 1 - k, j + 1 - k, k) else best)
        hmem2 hsort2 ?_ ?_ (Or.inr hge2) ?_ ?_
      · split
        · next h =>
          refine Or.inr ⟨rfl, ?_, ?_⟩
          · show 1 ≤ k
            omega
          · show j + 1 - k + k ≤ v.length
            have := runLen_le v j
            omega
        · exact hbP
      · intro m hm
        exact le_trans (hdom m hm) hgrow
      · intro j2
        rw [lookupJ2_cons]
        by_cases h2 : j2 = j
        · rw [if_pos h2, h2]
          exact ⟨hka, hkb⟩
        · rw [if_neg h2]
          exact hacc j2
      · refine Or.inr ?_
        rw [lookupJ2_cons, if_pos rfl]
        exact hk_eq
    · -- past the diagonal: the diagonal bound already dominates
      have hdR : runLen v i ≤ best.2.2 := by
        rcases hdiag with h | h
        · rcases List.mem_cons.mp h with he | h2
          · omega
          · have := hlt i h2
            omega
        · exact h
      have hkbest : k ≤ best.2.2 := le_trans hka hdR
      rw [if_neg (by omega : ¬ best.2.2 < k)]
      refine ih ((j, k) :: acc) best hmem2 hsort2 hbP hdom (Or.inr hdR) ?_ ?_
      · intro j2
        rw [lookupJ2_cons]
        by_cases h2 : j2 = j
        · rw [if_pos h2, h2]
          exact ⟨hka, hkb⟩
        · rw [if_neg h2]
          exact hacc j2
      · rcases haccd with h | h
        · rcases List.mem_cons.mp h with he | h2
          · omega
          · have := hlt i h2
            omega
        · refine Or.inr ?_
          rw [lookupJ2_cons, if_neg (by omega : ¬ i = j)]
          exact h

theorem dpLoop_diag (v : List Str) : ∀ (cnt i0 : Nat) (old : List (Nat × Nat))
    (best : Nat × Nat × Nat),
    i0 + cnt = v.length →
    (∀ j2, lookupJ2 old j2 ≤ (if i0 = 0 then 0 else runLen v (i0 - 1))) →
    (∀ j2, lookupJ2 old j2 ≤ runLen v j2) →
    (0 < i0 → lookupJ2 old (i0 - 1) = runLen v (i0 - 1)) →
    DiagBest v.length best →
    (∀ m, m < i0 → runLen v m ≤ best.2.2) →
    DiagBest v.length (dpLoop v v 0 v.length (List.range' i0 cnt) old best) := by
  intro cnt
  induction cnt with
  | zero =>
    intro i0 old best _ _ _ _ hbP _
    exact hbP
  | succ cnt ih =>
    intro i0 old best hsum hOa hOb hOd hbP hdom
    have hi0 : i0 < v.length := by omega
    rw [show List.range' i0 (cnt + 1) = i0 :: List.range' (i0 + 1) cnt from rfl,
      dpLoop_cons]
    by_cases hp : isPopular v (v.getD i0 []) = true
    · have hb2j : b2j v (v.getD i0 []) = [] := by
        unfold b2j
        rw [if_pos hp]
      rw [hb2j,
        show dpInner 0 v.length i0 old [] [] best = ([], best) from rfl]
      have hR0 : runLen v i0 = 0 := runLen_pop (by
        unfold nonpopAt
        rw [hp]
        rfl)
      refine ih (i0 + 1) [] best (by omega) ?_ ?_ ?_ hbP ?_
      · intro j2
        rw [lookupJ2_nil, if_neg (Nat.succ_ne_zero i0)]
        omega
      · intro j2
        rw [lookupJ2_nil]
        omega
      · intro _
        rw [lookupJ2_nil, show i0 + 1 - 1 = i0 from rfl, hR0]
      · intro m hm
        by_cases h2 : m = i0
        · rw [h2, hR0]
          omega
        · exact hdom m (by omega)
    · have hp2 : isPopular v (v.getD i0 []) = false := by
        cases h2 : isPopular v (v.getD i0 []) with
        | false => rfl
        | true => exact absurd h2 hp
      have hnpi : nonpopAt v i0 = true := by
        unfold nonpopAt
        rw [hp2]
        rfl
      have hRi : runLen v i0 = (if i0 = 0 then 0 else runLen v (i0 - 1)) + 1 :=
        runLen_succ_np hnpi
      have hmain := dpInner_diag v i0 hi0 hp2 old
        (fun j2 => by have := hOa j2; omega)
        hOb hOd (b2j v (v.getD i0 [])) [] best
        (fun j hj => hj) (b2j_sorted v _) hbP hdom
        (Or.inl (b2j_self hi0 hp2))
        (fun j2 => ⟨Nat.zero_le _, Nat.zero_le _⟩)
        (Or.inl (b2j_self hi0 hp2))
      obtain ⟨hbP2, hdom2, hge2, hacc2, haccd2⟩ := hmain
      refine ih (i0 + 1) _ _ (by omega) ?_ ?_ ?_ hbP2 ?_
      · intro j2
        rw [if_neg (Nat.succ_ne_zero i0), show i0 + 1 - 1 = i0 from rfl]
        exact (hacc2 j2).1
      · intro j2
        exact (hacc2 j2).2
      · intro _
        rw [show i0 + 1 - 1 = i0 from rfl]
        exact haccd2
      · intro m hm
        by_cases h2 : m = i0
        · rw [h2]
          exact hge2
        · exact le_trans (hdom2 m (by omega)) (le_refl _)

theorem flm_self_core (v : List Str) (d : Nat × Nat × Nat)
    (hdP : DiagBest v.length d) :
    extendFwdF v v v.length v.length
      (v.length - (extendBackF v v 0 0 d.1 d).2.2)
      (extendBackF v v 0 0 d.1 d) = (0, 0, v.length) := by
  obtain ⟨bi, bj, bs⟩ := d
  rcases hdP with h0 | ⟨h1, h2, h3⟩
  · have h0b : bi = 0 ∧ bj = 0 ∧ bs = 0 := by
      simpa [Prod.ext_iff] using h0
    obtain ⟨rfl, rfl, rfl⟩ := h0b
    rw [extendBack_diag v 0 0]
    rw [show (0 : Nat) + 0 = 0 from rfl]
    exact extendFwd_diag v (v.length - 0) 0 (by omega)
  · have h1b : bi = bj := h1
    subst h1b
    have h3b : bi + bs ≤ v.length := h3
    rw [extendBack_diag v bi bs]
    exact extendFwd_diag v (v.length - (bi + bs)) (bi + bs) (by omega)

theorem flm_self (v : List Str) :
    find_longest_match v v 0 v.length 0 v.length = (0, 0, v.length) := by
  have hdP : DiagBest v.length
      (dpLoop v v 0 v.length (List.range' 0 (v.length - 0)) [] (0, 0, 0)) := by
    refine dpLoop_diag v (v.length - 0) 0 [] (0, 0, 0) (by omega) ?_ ?_ ?_
      (Or.inl rfl) ?_
    · intro j2
      rw [lookupJ2_nil]
      simp
    · intro j2
      rw [lookupJ2_nil]
      exact Nat.zero_le _
    · intro h
      exact absurd h (by omega)
    · intro m hm
      exact absurd hm (by omega)
  exact flm_self_core v _ hdP

theorem blocks_self {v : List Str} (h : v ≠ []) :
    get_matching_blocks v v =
      [(0, 0, v.length), (v.length, v.length, 0)] := by
  have hn : 0 < v.length := List.length_pos.mpr h
  unfold get_matching_blocks
  rw [mbF_succ, flm_self]
  rw [if_neg (by omega : ¬ v.length = 0)]
  rw [if_neg (by simp : ¬ ((0 < (0, 0, v.length).1 &&
    0 < (0, 0, v.length).2.1) = true))]
  rw [if_neg (by simp : ¬ (((0, 0, v.length).1 + (0, 0, v.length).2.2 <
    v.length && (0, 0, v.length).2.1 + (0, 0, v.length).2.2 < v.length) =
    true))]
  rw [List.nil_append, mergeAdj_cons, if_pos ⟨rfl, rfl⟩, mergeAdj_nil,
    if_pos (by show 0 + v.length ≠ 0; omega)]
  simp

theorem opcodes_self {t : List Str} (h : t ≠ []) :
    align_words t t = [⟨Tag.equal, 0, t.length, 0, t.length⟩] := by
  have hn : 0 < t.length := List.length_pos.mpr h
  unfold align_words get_opcodes
  rw [blocks_self h, opcodesLoop_cons]
  rw [if_neg (by simp : ¬ ((0 : Nat) < 0 ∧ (0 : Nat) < 0))]
  rw [if_neg (by simp : ¬ (0 : Nat) < 0)]
  rw [if_neg (by simp : ¬ (0 : Nat) < 0)]
  rw [if_pos (by omega : t.length ≠ 0)]
  rw [opcodesLoop_cons]
  rw [if_neg (by simp : ¬ (0 + t.length < t.length ∧
    0 + t.length < t.length))]
  rw [if_neg (by simp : ¬ 0 + t.length < t.length)]
  rw [if_neg (by simp : ¬ 0 + t.length < t.length)]
  rw [if_neg (by simp : ¬ (0 : Nat) ≠ 0)]
  simp
  rfl

theorem processOps_single_equal (t : List Str) :
    processOps t t [⟨Tag.equal, 0, t.length, 0, t.length⟩]
      (0, [], List.replicate t.length "ok".data) =
    (t.length, [], List.replicate t.length "ok".data) := by
  rw [processOps_cons]
  show processOps t t []
    (0 + (t.length - 0), [], List.replicate t.length "ok".data) = _
  show (0 + (t.length - 0), ([] : List Mismatch),
    List.replicate t.length "ok".data) = _
  simp

/-- C1 (amended): the spec states the identity property for every non-empty
input string, but emptiness of the INPUT is not the right condition: an input
whose token sequence is empty (e.g. "!", non-empty but all punctuation) takes
the empty-reference short-circuit and scores 0 (see
`claim_C1_counterexample`).  Amended statement: for every input X whose token
sequence is non-empty, score(X, X) returns score 100, an empty mismatch list,
the token sequence twice, and an all-`ok` marks sequence. -/
theorem claim_C1_amended (X : Str) (h : tokenize X ≠ []) :
    score_and_mismatches X X =
      (100, [], tokenize X, tokenize X,
        List.replicate (tokenize X).length "ok".data) := by
  obtain ⟨t, ht⟩ : ∃ x, tokenize X = x := ⟨_, rfl⟩
  rw [ht] at h
  rw [score_and_mismatches_def, ht, if_neg h, opcodes_self h,
    processOps_single_equal t]
  have hn : 0 < t.length := List.length_pos.mpr h
  have hscore : mkRat (100 * t.length) (max 1 t.length) = 100 := by
    rw [Nat.max_eq_right hn, Rat.mkRat_eq_div]
    have hq : (t.length : ℚ) ≠ 0 := Nat.cast_ne_zero.mpr (by omega)
    push_cast
    rw [mul_div_assoc, div_self hq, mul_one]
  show (mkRat (100 * t.length) (max 1 t.length), ([] : List Mismatch), t, t,
    List.replicate t.length "ok".data) =
    (100, [], t, t, List.replicate t.length "ok".data)
  rw [hscore]

theorem claim_C1_witness :
    tokenize "hello world".data ≠ [] ∧
    score_and_mismatches "hello world".data "hello world".data =
      (100, [], tokenize "hello world".data, tokenize "hello world".data,
        List.replicate (tokenize "hello world".data).length "ok".data) :=
  ⟨by decide, claim_C1_amended "hello world".data (by decide)⟩
